import Mathlib

/-!
# Field-Measure: verification of the measurement and terrain-analysis core

Shallow embedding of the interactive polygon measurement and terrain-analysis
engine of the Field-Measure repository.  Coordinates and areas are modelled by
exact rationals (`ℚ`); the JavaScript floating-point numbers are idealized as
exact arithmetic.  External library functions with transcendental content
(Leaflet's `L.GeometryUtil.geodesicArea`, `L.LatLng.distanceTo`, and the
trigonometric pieces inside them) are taken as explicit function parameters,
so every statement quantifies over them; everything that the repository
itself computes is embedded concretely and executably.

Sources embedded here:
* `src/unnamed/part_001` — the main map page: drawing state (`points`,
  `undoStack`, `redoStack`), `handleMapClick`, `handleUndo`, `handleRedo`,
  `handleDrawCreated`, `UNIT_CONVERSIONS`, `updateAreaSize`,
  `createAnalysisGrid`, `calculateSlopes`, `isPointInPolygon`,
  `getElevationData`, `analyzeElevation`, and the elevation API handler.
* `src/components/Map.tsx` — two older component variants: `calculateArea`
  (first variant), `updateAreaSize` and `handleDrawCreated` (second variant).
-/

set_option maxRecDepth 4000

namespace FieldMeasure

/-- A map vertex, as produced by `L.latLng(lat, lng)` in the source. -/
structure Vertex where
  lat : ℚ
  lng : ℚ
deriving DecidableEq, Repr

instance : Inhabited Vertex := ⟨⟨0, 0⟩⟩

/-! ## Vertex edit history and polygon editor (src/unnamed/part_001)

The main page keeps the active polygon's vertices in the React state
`points : L.LatLng[]` together with two stacks `undoStack`, `redoStack`
and the `isDrawing` flag.  We collect them into one record. -/

/-- The drawing-related React state of the main map page. -/
structure EditorState where
  isDrawing : Bool
  points : List Vertex
  undoStack : List Vertex
  redoStack : List Vertex
deriving DecidableEq, Repr

/-- `handleMapClick` (src/unnamed/part_001, lines 237–259): while drawing,
append the clicked point to `points` and `undoStack` and clear `redoStack`;
outside drawing mode the click is ignored (`if (!isDrawing) return`). -/
def handleMapClick (s : EditorState) (newPoint : Vertex) : EditorState :=
  if s.isDrawing then
    { s with
      points := s.points ++ [newPoint]
      undoStack := s.undoStack ++ [newPoint]
      redoStack := [] }
  else s

/-- `handleUndo` (src/unnamed/part_001, lines 262–276): if `points` is
nonempty, pop its last element and push the removed point onto
`redoStack`.  (`undoStack` itself is not popped by the source.) -/
def handleUndo (s : EditorState) : EditorState :=
  if s.points = [] then s
  else
    { s with
      points := s.points.dropLast
      redoStack := s.redoStack ++ [s.points.getLastD default] }

/-- `handleRedo` (src/unnamed/part_001, lines 279–294): if `redoStack` is
nonempty, pop its last element and append that point back to `points`. -/
def handleRedo (s : EditorState) : EditorState :=
  if s.redoStack = [] then s
  else
    { s with
      redoStack := s.redoStack.dropLast
      points := s.points ++ [s.redoStack.getLastD default] }

/-! ## Unit conversion (src/unnamed/part_001, lines 59–82 and 394–406) -/

/-- The `MeasurementUnit` union type of the source. -/
inductive MeasurementUnit
  | ha
  | sqm
  | acre
  | sqft
deriving DecidableEq, Repr

/-- One row of the `UNIT_CONVERSIONS` table. -/
structure UnitConversion where
  toSqMeters : ℚ
  fromSqMeters : ℚ
  decimals : ℕ
deriving DecidableEq, Repr

/-- The `UNIT_CONVERSIONS` table (src/unnamed/part_001, lines 61–82). -/
def UNIT_CONVERSIONS : MeasurementUnit → UnitConversion
  | .ha => ⟨10000, 1/10000, 2⟩
  | .sqm => ⟨1, 1, 0⟩
  | .acre => ⟨4046.86, 1/4046.86, 2⟩
  | .sqft => ⟨0.092903, 1/0.092903, 0⟩

/-- The conversion performed by `updateAreaSize` (src/unnamed/part_001,
lines 394–406): `convertedArea = area * conversion.fromSqMeters`, displayed
with `conversion.decimals` decimal places.  We return the exact converted
value together with the decimals count. -/
def updateAreaSize (area : ℚ) (selectedUnit : MeasurementUnit) : ℚ × ℕ :=
  (area * (UNIT_CONVERSIONS selectedUnit).fromSqMeters,
    (UNIT_CONVERSIONS selectedUnit).decimals)

/-! ## The older Map.tsx component variants (src/components/Map.tsx) -/

namespace MapTsx

/-- The `type` field of an `UndoAction` (src/components/Map.tsx,
lines 357–360): `'add' | 'delete'`. -/
inductive ActionType
  | add
  | delete
deriving DecidableEq, Repr

/-- An `UndoAction` of the second Map.tsx variant: an action type together
with the layer it concerns, where a polygon layer is its vertex ring. -/
structure UndoAction where
  type : ActionType
  layer : List Vertex
deriving DecidableEq, Repr

/-- The drawn-items/history React state of the second Map.tsx variant. -/
structure MapState where
  layers : List (List Vertex)
  undoStack : List UndoAction
  redoStack : List UndoAction
deriving DecidableEq, Repr

/-- `handleDrawCreated` (src/components/Map.tsx, lines 720–735): add the
created layer to the drawn items, push an `'add'` action onto `undoStack`,
and clear `redoStack`. -/
def handleDrawCreated (s : MapState) (layer : List Vertex) : MapState :=
  { s with
    layers := s.layers ++ [layer]
    undoStack := s.undoStack ++ [⟨ActionType.add, layer⟩]
    redoStack := [] }

/-- `updateAreaSize` of the second Map.tsx variant (lines 483–505): iterate
over the drawn polygon layers and OVERWRITE `totalAreaInSqMeters` with the
geodesic area of each one in turn (`totalAreaInSqMeters = ...`, not `+=`),
so the final value is the area of the last polygon, or the initial `0` when
there is none.  The geodesic area function itself is Leaflet's external
`L.GeometryUtil.geodesicArea`, taken here as the parameter `geodesicA`. -/
def updateAreaSize (geodesicA : List Vertex → ℚ) (layers : List (List Vertex)) : ℚ :=
  layers.foldl (fun _totalAreaInSqMeters latLngs => geodesicA latLngs) 0

/-- `calculateArea` of the first Map.tsx variant (lines 190–209): collect
the coordinate rings of all polygon layers into `polygons`, then compute
`turf.area` (the parameter `turfArea`) of `polygons[0]` only, or report `0`
when no polygon was collected. -/
def calculateArea (turfArea : List Vertex → ℚ) (layers : List (List Vertex)) : ℚ :=
  match layers with
  | [] => 0
  | polygon0 :: _ => turfArea polygon0

end MapTsx

/-! ## Geodesic area (src/unnamed/part_001 delegates to the external
Leaflet-draw function `L.GeometryUtil.geodesicArea`) -/

/-- Modelled from the spec: the Geodesic Area Calculator (§4.2).  The source
only calls the external library function `L.GeometryUtil.geodesicArea`,
which is not under `src/`; the spec describes it as a sum of signed
contributions over the edges of the closed ring, built from each edge's
longitude delta and sine terms of the latitudes, scaled by the square of
Earth's radius, with the absolute value taken at the end, and with
degenerate input (<3 vertices) yielding exactly `0` with no error.  The
transcendental ingredients — the sine function and the degree-to-radian
factor — are abstract parameters `sinApprox` and `d2r`, so every theorem
about this model holds for every choice of them; the `<3 ↦ 0` guard and
the summation structure are concrete. -/
def geodesicArea (sinApprox : ℚ → ℚ) (d2r : ℚ) (latLngs : List Vertex) : ℚ :=
  if 2 < latLngs.length then
    |((List.range latLngs.length).foldl
        (fun area i =>
          let p1 := latLngs.getD i default
          let p2 := latLngs.getD ((i + 1) % latLngs.length) default
          area + (p2.lng - p1.lng) * d2r *
            (2 + sinApprox (p1.lat * d2r) + sinApprox (p2.lat * d2r)))
        0) * 6378137 * 6378137 / 2|
  else 0

/-- The area value that `handleUndo` (src/unnamed/part_001, line 274) passes
to `updateAreaSize` after removing the last vertex:
`newPoints.length > 2 ? L.GeometryUtil.geodesicArea(newPoints) : 0`. -/
def undoAreaUpdateArg (sinApprox : ℚ → ℚ) (d2r : ℚ) (s : EditorState) : ℚ :=
  let newPoints := s.points.dropLast
  if 2 < newPoints.length then geodesicArea sinApprox d2r newPoints else 0

/-! ## Point-in-polygon test (src/unnamed/part_001, lines 899–913) -/

/-- Cyclic access to the ring's vertices: `polygon[k mod n]`, with the
source's `L.LatLng` default for out-of-range access. -/
def vtx (polygon : List Vertex) (k : ℕ) : Vertex :=
  polygon.getD (k % polygon.length) default

/-- The x-intersection computed inside `isPointInPolygon` for the edge from
`polygon[k]` to `polygon[k+1]` (the source's
`(xj - xi) * (point.lng - yi) / (yj - yi) + xi` with `j = k`, `i = k+1`). -/
def tVal (point : Vertex) (polygon : List Vertex) (k : ℕ) : ℚ :=
  let A := vtx polygon k
  let B := vtx polygon (k + 1)
  (A.lat - B.lat) * (point.lng - B.lng) / (A.lng - B.lng) + B.lat

/-- The `intersect` condition of one loop iteration of `isPointInPolygon`
(src/unnamed/part_001, lines 907–908), for the edge from `polygon[k]` to
`polygon[k+1]` of the conceptually closed ring:
`((yi > point.lng) !== (yj > point.lng)) && (point.lat < t)`. -/
def crossB (point : Vertex) (polygon : List Vertex) (k : ℕ) : Bool :=
  (decide ((vtx polygon k).lng > point.lng) != decide ((vtx polygon (k + 1)).lng > point.lng))
    && decide (point.lat < tVal point polygon k)

/-- The loop body predicate of `isPointInPolygon` at loop index `i`, with
the source's previous-index pointer `j` (`j = i - 1`, wrapping to
`polygon.length - 1` at `i = 0`): `xi, yi` are the coordinates of
`polygon[i]`, `xj, yj` those of `polygon[j]`, and the tested condition is
`((yi > point.lng) !== (yj > point.lng)) &&
 (point.lat < (xj - xi) * (point.lng - yi) / (yj - yi) + xi)`. -/
def loopPred (point : Vertex) (polygon : List Vertex) (i : ℕ) : Bool :=
  let j := if i = 0 then polygon.length - 1 else i - 1
  let xi := (polygon.getD i default).lat
  let yi := (polygon.getD i default).lng
  let xj := (polygon.getD j default).lat
  let yj := (polygon.getD j default).lng
  (decide (yi > point.lng) != decide (yj > point.lng))
    && decide (point.lat < (xj - xi) * (point.lng - yi) / (yj - yi) + xi)

/-- `isPointInPolygon` (src/unnamed/part_001, lines 899–913): the even-odd
ray-casting loop.  `inside` starts `false` and is toggled once for every
loop index whose `intersect` condition (`loopPred`) holds; the loop runs
`i = 0 … polygon.length - 1` with `j` trailing one step behind
cyclically. -/
def isPointInPolygon (point : Vertex) (polygon : List Vertex) : Bool :=
  (List.range polygon.length).foldl
    (fun inside i => if loopPred point polygon i then !inside else inside)
    false

/-- The number of ring edges `polygon[k] → polygon[k+1]` (ring closed
cyclically) whose `intersect` condition holds — the even-odd crossing count
of the ray-casting rule. -/
def crossCount (point : Vertex) (polygon : List Vertex) : ℕ :=
  ((Finset.range polygon.length).filter (fun k => crossB point polygon k = true)).card

/-! ## Analysis grid (src/unnamed/part_001, lines 868–883) -/

/-- The bounding box returned by Leaflet's `polygon.getBounds()`. -/
structure Bounds where
  north : ℚ
  south : ℚ
  east : ℚ
  west : ℚ
deriving DecidableEq, Repr

/-- Modelled from the spec: `boundingBox(ring)` (§4.1) is the min/max of the
vertex latitudes/longitudes.  The source obtains it from the external
Leaflet method `polygon.getBounds()`, which is not under `src/`. -/
def getBounds (polygon : List Vertex) : Bounds :=
  match polygon with
  | [] => ⟨0, 0, 0, 0⟩
  | v :: vs =>
    vs.foldl
      (fun b w => ⟨max b.north w.lat, min b.south w.lat, max b.east w.lng, min b.west w.lng⟩)
      ⟨v.lat, v.lat, v.lng, v.lng⟩

/-- One source-style `for (x = start; x <= limit; x += step)` loop over
rationals, collecting the loop variable's values.  The `fuel` argument only
bounds the iteration count so that the definition is total; with a positive
step and `limit = start + m * step`, `m + 2 ≤ fuel` fuel is never exhausted
and the loop stops because the condition fails, exactly as in the
source. -/
def loopQ (fuel : ℕ) (start step limit : ℚ) : List ℚ :=
  match fuel with
  | 0 => []
  | fuel + 1 => if start ≤ limit then start :: loopQ fuel (start + step) step limit else []

/-- `createAnalysisGrid` (src/unnamed/part_001, lines 868–883):
`latStep = (north - south) / resolution`, `lngStep = (east - west) /
resolution`, then the nested inclusive loops
`for (lat = south; lat <= north; lat += latStep)`
`for (lng = west; lng <= east; lng += lngStep)` collect every candidate
point that passes `isPointInPolygon`. -/
def createAnalysisGrid (bounds : Bounds) (polygon : List Vertex) (resolution : ℕ) : List Vertex :=
  let latStep := (bounds.north - bounds.south) / resolution
  let lngStep := (bounds.east - bounds.west) / resolution
  (loopQ (resolution + 2) bounds.south latStep bounds.north).flatMap fun lat =>
    (loopQ (resolution + 2) bounds.west lngStep bounds.east).filterMap fun lng =>
      if isPointInPolygon ⟨lat, lng⟩ polygon then some ⟨lat, lng⟩ else none

/-- The candidate lattice actually enumerated by `createAnalysisGrid`'s
loops before point-in-polygon filtering: `(resolution + 1) × (resolution +
1)` points, in row-major order (latitude outer, longitude inner), with per-
axis step `span / resolution` and both loop endpoints included. -/
def gridCandidates (bounds : Bounds) (resolution : ℕ) : List Vertex :=
  (List.range (resolution + 1)).flatMap fun i : ℕ =>
    (List.range (resolution + 1)).map fun j : ℕ =>
      ⟨bounds.south + (i : ℚ) * ((bounds.north - bounds.south) / resolution),
       bounds.west + (j : ℚ) * ((bounds.east - bounds.west) / resolution)⟩

/-- This definition follows the spec's words, not the source: an `N × N`
lattice of candidate points spanning the bounding box (§4.6 step 1 and the
glossary's "N×N count of lattice sample points spanning a polygon's
bounding box, before point-in-polygon filtering"), i.e. `N` evenly spaced
values per axis including both box edges (per-axis step `span / (N - 1)`),
in row-major order.  It is compared against `createAnalysisGrid`. -/
def specGridNxN (bounds : Bounds) (resolution : ℕ) : List Vertex :=
  (List.range resolution).flatMap fun i : ℕ =>
    (List.range resolution).map fun j : ℕ =>
      ⟨bounds.south + (i : ℚ) * ((bounds.north - bounds.south) / ((resolution - 1 : ℕ) : ℚ)),
       bounds.west + (j : ℚ) * ((bounds.east - bounds.west) / ((resolution - 1 : ℕ) : ℚ))⟩

/-- The grid built by `analyzeElevation` (src/unnamed/part_001, line 780):
`createAnalysisGrid(polygon.getBounds(), points, 20)` — the default (and
only) resolution used by the source is 20. -/
def analyzeElevationGrid (polygon : List Vertex) : List Vertex :=
  createAnalysisGrid (getBounds polygon) polygon 20

/-! ## Slopes (src/unnamed/part_001, lines 886–896 and 785–792) -/

/-- `calculateSlopes` (src/unnamed/part_001, lines 886–896): for each pair
of samples adjacent in list order, `Math.abs((e2 - e1) / distance) * 100`,
where `distance` is Leaflet's external `points[i].distanceTo(points[i+1])`,
taken here as the parameter `dist`. -/
def calculateSlopes (dist : Vertex → Vertex → ℚ) (elevationData : List ℚ)
    (points : List Vertex) : List ℚ :=
  (List.range (elevationData.length - 1)).map fun i =>
    |(elevationData.getD (i + 1) 0 - elevationData.getD i 0) /
        dist (points.getD i default) (points.getD (i + 1) default)| * 100

/-- The `avgSlope` computed by `analyzeElevation` (src/unnamed/part_001,
line 792): `slopes.reduce((a, b) => a + b, 0) / slopes.length`. -/
def avgSlopeOf (slopes : List ℚ) : ℚ :=
  slopes.foldl (· + ·) 0 / slopes.length

/-! ## Elevation queries (src/unnamed/part_001, lines 730–762 and the
`/api/elevation` handler, lines 1177–1206) -/

/-- The status field of the external Google elevation API's response. -/
inductive ElevStatus
  | OK
  | err
deriving DecidableEq, Repr

/-- The `/api/elevation` handler (src/unnamed/part_001, lines 1177–1206)
from the client's point of view: when the provider's status is `OK` it
responds 200 with the provider's `results`; otherwise it throws, and the
catch block responds 500 with a JSON body that has **no** `results` field —
modelled as `none`. -/
def elevationApiHandler (status : ElevStatus) (results : List (Vertex × ℚ)) :
    Option (List (Vertex × ℚ)) :=
  if status = ElevStatus.OK then some results else none

/-- Fuel-bounded body of the chunking loop: each iteration takes one chunk
off the front of the remaining list.  The fuel only makes the recursion
structural; `chunksOf` supplies enough of it that the loop always stops
because the list is exhausted, as in the source. -/
def chunksGo (chunkSize : ℕ) : ℕ → List Vertex → List (List Vertex)
  | 0, _ => []
  | _fuel + 1, [] => []
  | fuel + 1, l => l.take chunkSize :: chunksGo chunkSize fuel (l.drop chunkSize)

/-- The chunking loop of `getElevationData` (src/unnamed/part_001, lines
732–736): `for (i = 0; i < points.length; i += chunkSize)
chunks.push(points.slice(i, i + chunkSize))`. -/
def chunksOf (chunkSize : ℕ) (l : List Vertex) : List (List Vertex) :=
  chunksGo chunkSize l.length l

/-- `getElevationData` (src/unnamed/part_001, lines 730–762): split the
points into chunks of 500, post each chunk to `/api/elevation`, and append
`data.results` to `allResults` — but only when the response body has a
`results` field (`if (data.results)`); a response without one (in
particular every non-OK / HTTP-500 response) is silently skipped, and the
function can only ever return a plain list of samples, never an error.
The network round trip is the parameter `respond`. -/
def getElevationData (respond : List Vertex → Option (List (Vertex × ℚ)))
    (points : List Vertex) : List (Vertex × ℚ) :=
  (chunksOf 500 points).foldl
    (fun allResults chunk =>
      match respond chunk with
      | some results => allResults ++ results
      | none => allResults)
    []

/-- The input-validation guard at the top of `analyzeElevation`
(src/unnamed/part_001, lines 769–773): the only rejected input is an empty
layer collection (`if (layers.length === 0) { alert('Please draw a field
first'); return; }`); any existing polygon layer — of any vertex count — is
accepted, and the analysis then proceeds on
`layers[layers.length - 1]`. -/
inductive AnalysisError
  | PolygonRequired
deriving DecidableEq, Repr

/-- The guard itself: `some .PolygonRequired` exactly when the drawn-items
collection is empty; `none` (no error, analysis proceeds) otherwise. -/
def analyzeElevationGuard (layers : List (List Vertex)) : Option AnalysisError :=
  if layers.length = 0 then some AnalysisError.PolygonRequired else none

/-! ## Convexity, centroid and the cross product (for the point-in-polygon
claims) -/

/-- Twice the signed area of the triangle `o a b`: the planar cross product
of `a - o` and `b - o` in `(lat, lng)` coordinates. -/
def cross (o a b : Vertex) : ℚ :=
  (a.lat - o.lat) * (b.lng - o.lng) - (a.lng - o.lng) * (b.lat - o.lat)

/-- The vertex-average centroid of a polygon ring. -/
def centroid (polygon : List Vertex) : Vertex :=
  ⟨(polygon.map (·.lat)).sum / polygon.length,
   (polygon.map (·.lng)).sum / polygon.length⟩

/-- A (strictly) convex polygon ring: at least three vertices, and every
vertex lies strictly on one fixed side of every directed edge of the closed
ring — strictly to the left of each edge for a counter-clockwise ring, or
strictly to the right of each edge for a clockwise one. -/
def ConvexRing (polygon : List Vertex) : Prop :=
  3 ≤ polygon.length ∧
    ((∀ m < polygon.length, ∀ j < polygon.length,
        j ≠ m → j ≠ (m + 1) % polygon.length →
          0 < cross (vtx polygon m) (vtx polygon (m + 1)) (vtx polygon j)) ∨
     (∀ m < polygon.length, ∀ j < polygon.length,
        j ≠ m → j ≠ (m + 1) % polygon.length →
          cross (vtx polygon m) (vtx polygon (m + 1)) (vtx polygon j) < 0))

instance (polygon : List Vertex) : Decidable (ConvexRing polygon) := by
  unfold ConvexRing
  infer_instance

/-- A point strictly outside the polygon's bounding box: strictly north of
every vertex, strictly south of all of them, strictly east, or strictly
west. -/
def OutsideBBox (point : Vertex) (polygon : List Vertex) : Prop :=
  (∀ w ∈ polygon, w.lat < point.lat) ∨ (∀ w ∈ polygon, point.lat < w.lat) ∨
  (∀ w ∈ polygon, w.lng < point.lng) ∨ (∀ w ∈ polygon, point.lng < w.lng)

instance (point : Vertex) (polygon : List Vertex) : Decidable (OutsideBBox point polygon) := by
  unfold OutsideBBox
  infer_instance

/-- Ring edge `k → k+1` crosses the horizontal level of `point` going up:
its tail longitude is at most `point.lng` and its head longitude exceeds
it.  This matches the half-open straddle test of `isPointInPolygon`. -/
def upwardAt (point : Vertex) (polygon : List Vertex) (k : ℕ) : Prop :=
  ¬ point.lng < (vtx polygon k).lng ∧ point.lng < (vtx polygon (k + 1)).lng

/-- Ring edge `k → k+1` crosses the horizontal level of `point` going
down. -/
def downwardAt (point : Vertex) (polygon : List Vertex) (k : ℕ) : Prop :=
  point.lng < (vtx polygon k).lng ∧ ¬ point.lng < (vtx polygon (k + 1)).lng

instance (point : Vertex) (polygon : List Vertex) (k : ℕ) :
    Decidable (upwardAt point polygon k) := by
  unfold upwardAt
  infer_instance

instance (point : Vertex) (polygon : List Vertex) (k : ℕ) :
    Decidable (downwardAt point polygon k) := by
  unfold downwardAt
  infer_instance

/-- A concrete axis-aligned square ring (side 2, corners `(0,0)` and
`(2,2)`), used as the concrete input of several evaluations. -/
def sqPoly : List Vertex := [⟨0, 0⟩, ⟨0, 2⟩, ⟨2, 2⟩, ⟨2, 0⟩]

/-! ## Helper lemmas -/

/-- A `loopQ` loop whose start already exceeds the limit yields nothing. -/
theorem loopQ_gt (fuel : ℕ) (start step limit : ℚ) (h : limit < start) :
    loopQ fuel start step limit = [] := by
  cases fuel with
  | zero => rfl
  | succ n => simp [loopQ, not_le.mpr h]

/-- With a positive step, a `loopQ` loop whose limit is exactly `m` steps
beyond its start runs exactly `m + 1` times, visiting
`start, start + step, …, start + m·step`, provided the fuel exceeds `m`. -/
theorem loopQ_run (step : ℚ) (hstep : 0 < step) :
    ∀ (m fuel : ℕ) (start limit : ℚ), limit = start + m * step → m < fuel →
      loopQ fuel start step limit =
        (List.range (m + 1)).map (fun k : ℕ => start + (k : ℚ) * step) := by
  intro m
  induction m with
  | zero =>
    intro fuel start limit hlim hfuel
    obtain ⟨f, rfl⟩ : ∃ f, fuel = f + 1 := ⟨fuel - 1, by omega⟩
    have hls : limit = start := by rw [hlim]; push_cast; ring
    subst hls
    rw [loopQ, if_pos le_rfl, loopQ_gt _ _ _ _ (by linarith)]
    simp [List.range_succ]
  | succ m ih =>
    intro fuel start limit hlim hfuel
    obtain ⟨f, rfl⟩ : ∃ f, fuel = f + 1 := ⟨fuel - 1, by omega⟩
    have hstartle : start ≤ limit := by
      rw [hlim]
      have : (0 : ℚ) < (m + 1 : ℕ) * step := by positivity
      linarith
    have hR : (List.range (m + 1 + 1)).map (fun k : ℕ => start + (k : ℚ) * step) =
        start :: (List.range (m + 1)).map (fun k : ℕ => (start + step) + (k : ℚ) * step) := by
      rw [List.range_succ_eq_map, List.map_cons, List.map_map]
      have hf : ((fun k : ℕ => start + (k : ℚ) * step) ∘ Nat.succ) =
          fun k : ℕ => (start + step) + (k : ℚ) * step := by
        funext k
        simp only [Function.comp]
        push_cast
        ring
      rw [hf]
      norm_num
    rw [loopQ, if_pos hstartle,
      ih f (start + step) limit (by rw [hlim]; push_cast; ring) (by omega), hR]

/-- `filterMap` with a guard that wraps each element equals `filter` after
`map`. -/
theorem filterMap_guard {α β : Type} (p : β → Bool) (f : α → β) (l : List α) :
    (l.filterMap fun x => if p (f x) then some (f x) else none) = (l.map f).filter p := by
  induction l with
  | nil => rfl
  | cons a t ih =>
    cases hpa : p (f a) <;>
      simp [List.filterMap_cons, List.filter_cons, hpa, ih]

/-- Filtering distributes over `flatMap`. -/
theorem filter_flatMap {α β : Type} (p : β → Bool) (f : α → List β) (l : List α) :
    (l.flatMap f).filter p = l.flatMap fun x => (f x).filter p := by
  induction l with
  | nil => rfl
  | cons a t ih => simp [List.flatMap_cons, List.filter_append, ih]

/-- `flatMap` after `map` composes the functions. -/
theorem flatMap_map_comp {α β γ : Type} (f : α → β) (g : β → List γ) (l : List α) :
    (l.map f).flatMap g = l.flatMap fun x => g (f x) := by
  induction l with
  | nil => rfl
  | cons a t ih => simp [List.flatMap_cons, ih]

/-- Folding an overwrite-accumulator over a list keeps the last overwrite,
or the initial value for the empty list. -/
theorem foldl_overwrite (g : List Vertex → ℚ) (l : List (List Vertex)) :
    ∀ a : ℚ, l.foldl (fun _x latLngs => g latLngs) a = if l.isEmpty then a else g (l.getLastD []) := by
  induction l with
  | nil => intro a; rfl
  | cons x t ih =>
    intro a
    rw [List.foldl_cons, ih (g x)]
    cases t with
    | nil => rfl
    | cons y u => simp [List.getLastD_cons]

/-! ## Claims C1–C3 (edit history) -/

/-- C1: for every polygon vertex sequence, calling undo immediately after a
vertex `v` was appended (a push of `Add(v)` by `handleMapClick` in drawing
mode) yields exactly the vertex sequence that existed before the append,
and calling redo immediately after that undo yields the sequence with `v`
appended again at the end. -/
theorem C1_undo_redo_roundtrip (s : EditorState) (v : Vertex) (h : s.isDrawing = true) :
    (handleUndo (handleMapClick s v)).points = s.points ∧
    (handleRedo (handleUndo (handleMapClick s v))).points = s.points ++ [v] := by
  have hclick : handleMapClick s v =
      { s with points := s.points ++ [v], undoStack := s.undoStack ++ [v], redoStack := [] } := by
    simp [handleMapClick, h]
  have hne : s.points ++ [v] ≠ [] := by simp
  have hundo : handleUndo (handleMapClick s v) =
      { s with points := s.points, undoStack := s.undoStack ++ [v], redoStack := [v] } := by
    rw [hclick]
    simp [handleUndo, hne, List.dropLast_concat, List.getLastD_concat]
  refine ⟨by rw [hundo], ?_⟩
  rw [hundo]
  simp [handleRedo]

/-- Witness for C1 at a concrete state and vertex. -/
theorem C1_witness :
    ((⟨true, [⟨1, 2⟩], [], [⟨9, 9⟩]⟩ : EditorState)).isDrawing = true ∧
    (handleUndo (handleMapClick ⟨true, [⟨1, 2⟩], [], [⟨9, 9⟩]⟩ ⟨3, 4⟩)).points = [⟨1, 2⟩] ∧
    (handleRedo (handleUndo (handleMapClick ⟨true, [⟨1, 2⟩], [], [⟨9, 9⟩]⟩ ⟨3, 4⟩))).points =
      [⟨1, 2⟩, ⟨3, 4⟩] :=
  ⟨rfl, (C1_undo_redo_roundtrip ⟨true, [⟨1, 2⟩], [], [⟨9, 9⟩]⟩ ⟨3, 4⟩ rfl).1,
    (C1_undo_redo_roundtrip ⟨true, [⟨1, 2⟩], [], [⟨9, 9⟩]⟩ ⟨3, 4⟩ rfl).2⟩

/-- C2: every new mutation push — appending a point while drawing
(`handleMapClick` of the main page) or a draw-created action
(`handleDrawCreated` of Map.tsx) — leaves the redo stack empty.  Both
statements hold for *every* starting state, hence in particular regardless
of how many undo calls preceded the push. -/
theorem C2_push_clears_redo :
    (∀ (s : EditorState) (v : Vertex), s.isDrawing = true →
      (handleMapClick s v).redoStack = []) ∧
    (∀ (t : MapTsx.MapState) (layer : List Vertex),
      (MapTsx.handleDrawCreated t layer).redoStack = []) :=
  ⟨fun s v h => by simp [handleMapClick, h], fun _t _layer => rfl⟩

/-- Witness for C2 at concrete states whose redo stacks start nonempty. -/
theorem C2_witness :
    ((⟨true, [], [], [⟨7, 7⟩]⟩ : EditorState)).isDrawing = true ∧
    (handleMapClick ⟨true, [], [], [⟨7, 7⟩]⟩ ⟨1, 1⟩).redoStack = [] ∧
    (MapTsx.handleDrawCreated ⟨[], [], [⟨MapTsx.ActionType.add, []⟩]⟩ [⟨2, 2⟩]).redoStack = [] :=
  ⟨rfl, C2_push_clears_redo.1 ⟨true, [], [], [⟨7, 7⟩]⟩ ⟨1, 1⟩ rfl,
    C2_push_clears_redo.2 ⟨[], [], [⟨MapTsx.ActionType.add, []⟩]⟩ [⟨2, 2⟩]⟩

/-- C3: for every polygon with fewer than 3 vertices the computed area is
exactly `0`, for every choice of the transcendental parameters — both for
the area function itself and for the area value `handleUndo` feeds to the
display update; being total functions into `ℚ`, neither can raise an
error. -/
theorem C3_degenerate_area_zero (sinApprox : ℚ → ℚ) (d2r : ℚ) :
    (∀ latLngs : List Vertex, latLngs.length < 3 →
      geodesicArea sinApprox d2r latLngs = 0) ∧
    (∀ s : EditorState, s.points.dropLast.length < 3 →
      undoAreaUpdateArg sinApprox d2r s = 0) := by
  constructor
  · intro latLngs hlen
    rw [geodesicArea, if_neg (by omega)]
  · intro s hlen
    show (if 2 < s.points.dropLast.length then _ else (0 : ℚ)) = 0
    rw [if_neg (by omega)]

/-- Witness for C3 on a two-vertex polygon. -/
theorem C3_witness :
    ([(⟨0, 0⟩ : Vertex), ⟨1, 1⟩]).length < 3 ∧
    geodesicArea (fun _q => 0) 0 [⟨0, 0⟩, ⟨1, 1⟩] = 0 ∧
    undoAreaUpdateArg (fun _q => 0) 0 ⟨false, [⟨0, 0⟩, ⟨1, 1⟩], [], []⟩ = 0 :=
  ⟨by decide, (C3_degenerate_area_zero (fun _q => 0) 0).1 [⟨0, 0⟩, ⟨1, 1⟩] (by decide),
    (C3_degenerate_area_zero (fun _q => 0) 0).2 ⟨false, [⟨0, 0⟩, ⟨1, 1⟩], [], []⟩ (by decide)⟩

/-! ## Claim C4 (analysis grid) -/

unseal Rat.mul Rat.add Rat.sub Rat.inv Rat.ofScientific in
/-- C4, as stated, is false: for the square ring `sqPoly` with its
(non-degenerate) bounding box and resolution `N = 2`, the analysis grid
computed by the source is **not** the in-polygon subset of an `N × N`
lattice of candidate points spanning the bounding box (the spec-worded
`specGridNxN`), and the candidate lattice the loops actually enumerate has
`9 = (N+1)²` points, not `N² = 4`. -/
theorem C4_counterexample :
    createAnalysisGrid ⟨2, 0, 2, 0⟩ sqPoly 2 ≠
      (specGridNxN ⟨2, 0, 2, 0⟩ 2).filter (fun q => isPointInPolygon q sqPoly) ∧
    (gridCandidates ⟨2, 0, 2, 0⟩ 2).length ≠ 2 * 2 := by
  decide

/-- C4 (amended): for every polygon, every bounding box with positive
latitude and longitude extent, and every resolution `N ≥ 1`, the analysis
grid consists of exactly the points of the `(N+1) × (N+1)` lattice of
candidate points spanning the bounding box (per-axis step `span / N`, both
endpoints included) that satisfy the point-in-polygon test, in row-major
(latitude-outer, longitude-inner) order; candidates outside the polygon
are discarded, and the resolution used by `analyzeElevation` is the
default 20. -/
theorem C4_grid_is_filtered_lattice :
    (∀ (bounds : Bounds) (polygon : List Vertex) (resolution : ℕ),
      bounds.south < bounds.north → bounds.west < bounds.east → 1 ≤ resolution →
        createAnalysisGrid bounds polygon resolution =
          (gridCandidates bounds resolution).filter (fun q => isPointInPolygon q polygon) ∧
        (gridCandidates bounds resolution).length = (resolution + 1) * (resolution + 1)) ∧
    (∀ polygon : List Vertex,
      analyzeElevationGrid polygon = createAnalysisGrid (getBounds polygon) polygon 20) := by
  constructor
  · intro bounds polygon resolution hns hew hres
    have hresQ : (0 : ℚ) < (resolution : ℚ) := by
      exact_mod_cast Nat.lt_of_lt_of_le Nat.zero_lt_one hres
    have hlatpos : 0 < (bounds.north - bounds.south) / resolution :=
      div_pos (sub_pos.mpr hns) hresQ
    have hlngpos : 0 < (bounds.east - bounds.west) / resolution :=
      div_pos (sub_pos.mpr hew) hresQ
    have hlat : loopQ (resolution + 2) bounds.south
        ((bounds.north - bounds.south) / resolution) bounds.north =
        (List.range (resolution + 1)).map
          (fun k : ℕ => bounds.south + (k : ℚ) * ((bounds.north - bounds.south) / resolution)) :=
      loopQ_run _ hlatpos resolution (resolution + 2) _ _
        (by field_simp) (by omega)
    have hlng : loopQ (resolution + 2) bounds.west
        ((bounds.east - bounds.west) / resolution) bounds.east =
        (List.range (resolution + 1)).map
          (fun k : ℕ => bounds.west + (k : ℚ) * ((bounds.east - bounds.west) / resolution)) :=
      loopQ_run _ hlngpos resolution (resolution + 2) _ _
        (by field_simp) (by omega)
    constructor
    · simp only [createAnalysisGrid]
      rw [hlat, hlng, gridCandidates, filter_flatMap, flatMap_map_comp]
      congr 1
      funext i
      rw [List.filterMap_map]
      simp only [Function.comp_def]
      rw [filterMap_guard (fun q => isPointInPolygon q polygon)
        (fun k : ℕ => (⟨bounds.south + (i : ℚ) * ((bounds.north - bounds.south) / resolution),
          bounds.west + (k : ℚ) * ((bounds.east - bounds.west) / resolution)⟩ : Vertex))]
    · rw [gridCandidates, List.length_flatMap]
      simp only [Function.comp_def, List.length_map, List.length_range]
      rw [List.map_const']
      simp [List.sum_replicate, smul_eq_mul]
  · intro polygon
    rfl

/-- Witness for C4 (amended) at the square ring, its bounding box, and
resolution 2. -/
theorem C4_witness :
    ((⟨2, 0, 2, 0⟩ : Bounds)).south < ((⟨2, 0, 2, 0⟩ : Bounds)).north ∧
    ((⟨2, 0, 2, 0⟩ : Bounds)).west < ((⟨2, 0, 2, 0⟩ : Bounds)).east ∧
    createAnalysisGrid ⟨2, 0, 2, 0⟩ sqPoly 2 =
      (gridCandidates ⟨2, 0, 2, 0⟩ 2).filter (fun q => isPointInPolygon q sqPoly) ∧
    (gridCandidates ⟨2, 0, 2, 0⟩ 2).length = 3 * 3 :=
  ⟨by norm_num, by norm_num,
    (C4_grid_is_filtered_lattice.1 ⟨2, 0, 2, 0⟩ sqPoly 2
      (by norm_num) (by norm_num) (by norm_num)).1,
    (C4_grid_is_filtered_lattice.1 ⟨2, 0, 2, 0⟩ sqPoly 2
      (by norm_num) (by norm_num) (by norm_num)).2⟩

/-! ## Claim C5 (slope computation) -/

/-- C5: for every list of `n ≥ 1` elevation samples with their grid points
(and a nonnegative distance function, as Leaflet's `distanceTo` is), the
computed slope list has exactly `n - 1` entries; entry `i` is
`|elevation(i+1) - elevation(i)| / distance(point i, point i+1) * 100`,
pairing samples adjacent in list (lattice index) order; and the reported
average slope is the arithmetic mean (sum over count) of the entries. -/
theorem C5_slope_statistics (dist : Vertex → Vertex → ℚ) (elevationData : List ℚ)
    (points : List Vertex) (_h1 : 1 ≤ elevationData.length)
    (hd : ∀ a b, 0 ≤ dist a b) :
    (calculateSlopes dist elevationData points).length = elevationData.length - 1 ∧
    (∀ i, i < elevationData.length - 1 →
      (calculateSlopes dist elevationData points).getD i 0 =
        |elevationData.getD (i + 1) 0 - elevationData.getD i 0| /
          dist (points.getD i default) (points.getD (i + 1) default) * 100) ∧
    avgSlopeOf (calculateSlopes dist elevationData points) =
      (calculateSlopes dist elevationData points).sum /
        (calculateSlopes dist elevationData points).length := by
  refine ⟨by simp [calculateSlopes], ?_, ?_⟩
  · intro i hi
    have hcell : (calculateSlopes dist elevationData points).getD i 0 =
        |(elevationData.getD (i + 1) 0 - elevationData.getD i 0) /
          dist (points.getD i default) (points.getD (i + 1) default)| * 100 := by
      rw [calculateSlopes, List.getD_eq_getElem?_getD, List.getElem?_map,
        List.getElem?_range hi]
      rfl
    rw [hcell, abs_div, abs_of_nonneg (hd _ _)]
  · rw [avgSlopeOf, List.sum_eq_foldl]

/-- Witness for C5 on two concrete samples. -/
theorem C5_witness :
    1 ≤ ([1, 3] : List ℚ).length ∧
    (calculateSlopes (fun _a _b => 1) [1, 3] [⟨0, 0⟩, ⟨0, 1⟩]).length = 1 ∧
    avgSlopeOf (calculateSlopes (fun _a _b => 1) [1, 3] [⟨0, 0⟩, ⟨0, 1⟩]) =
      (calculateSlopes (fun _a _b => 1) [1, 3] [⟨0, 0⟩, ⟨0, 1⟩]).sum /
        (calculateSlopes (fun _a _b => 1) [1, 3] [⟨0, 0⟩, ⟨0, 1⟩]).length :=
  ⟨by decide,
    (C5_slope_statistics (fun _a _b => 1) [1, 3] [⟨0, 0⟩, ⟨0, 1⟩] (by decide)
      (fun _a _b => by norm_num)).1,
    (C5_slope_statistics (fun _a _b => 1) [1, 3] [⟨0, 0⟩, ⟨0, 1⟩] (by decide)
      (fun _a _b => by norm_num)).2.2⟩

/-! ## Claims C7 and C8 (error handling of the analysis pipeline) -/

/-- C7: evaluation of the code at the failing input.  A drawn-items
collection holding one polygon with only 2 vertices passes
`analyzeElevation`'s guard (`none`: no error is reported and the analysis
proceeds), although the polygon it then analyses has fewer than 3
vertices; only the genuinely empty collection produces the
"please draw a field first" (`PolygonRequired`) rejection. -/
theorem C7_guard_eval :
    analyzeElevationGuard [[(⟨0, 0⟩ : Vertex), ⟨1, 1⟩]] = none ∧
    (([[(⟨0, 0⟩ : Vertex), ⟨1, 1⟩]].getLastD []).length < 3) ∧
    analyzeElevationGuard [] = some AnalysisError.PolygonRequired := by
  decide

/-- C8: evaluation of the code at the failing input.  First conjunct: a
single batch whose provider status is non-OK makes the API handler answer
without a `results` field, and `getElevationData` then returns the empty
sample list — the call does not fail, and the analysis continues on zero
samples.  Second conjunct: with 501 points (two batches) where the
second batch's response carries no `results`, the call returns the 500
samples of the first batch — a partial result that the analysis then
classifies and displays. -/
theorem C8_batch_failure_eval :
    getElevationData
        (fun chunk => elevationApiHandler ElevStatus.err (chunk.map (fun v => (v, (5 : ℚ)))))
        [⟨0, 0⟩] = [] ∧
    getElevationData
        (fun chunk => if chunk.length = 500
          then some (chunk.map (fun v => (v, (5 : ℚ)))) else none)
        (List.replicate 501 ⟨0, 0⟩) =
      List.replicate 500 ((⟨0, 0⟩ : Vertex), (5 : ℚ)) := by
  constructor
  · rfl
  · rfl

/-! ## Claim C9 (unit conversion) -/

/-- C9: unit conversion is the pure function of `(area, unit)` given by the
fixed table — hectare multiplies by `1/10000` and displays 2 decimals,
square meter by `1` with 0 decimals, acre by `1/4046.86` with 2 decimals,
square foot by `1/0.092903` with 0 decimals.  The returned value is the
exact product (no further rounding is applied to it), and as a Lean
function the conversion is deterministic and side-effect free by
construction. -/
theorem C9_unit_conversion_table (area : ℚ) :
    updateAreaSize area MeasurementUnit.ha = (area * (1 / 10000), 2) ∧
    updateAreaSize area MeasurementUnit.sqm = (area * 1, 0) ∧
    updateAreaSize area MeasurementUnit.acre = (area * (1 / 4046.86), 2) ∧
    updateAreaSize area MeasurementUnit.sqft = (area * (1 / 0.092903), 0) :=
  ⟨rfl, rfl, rfl, rfl⟩

/-! ## Claim C10 (multi-polygon area) -/

/-- C10: when the drawn-layer collection holds several polygons, the
recomputed area is the area of a single polygon — the last one enumerated
by `updateAreaSize` (whose loop overwrites its accumulator) and the first
one collected by `calculateArea` — never the sum of all polygon areas; and
with zero polygons both report exactly `0`.  This holds for every area
function supplied for the external `L.GeometryUtil.geodesicArea` /
`turf.area`. -/
theorem C10_single_polygon_area (geodesicA turfArea : List Vertex → ℚ)
    (layers : List (List Vertex)) :
    MapTsx.updateAreaSize geodesicA layers =
      (if layers.isEmpty then 0 else geodesicA (layers.getLastD [])) ∧
    MapTsx.calculateArea turfArea layers =
      (if layers.isEmpty then 0 else turfArea (layers.headD [])) := by
  constructor
  · exact foldl_overwrite geodesicA layers 0
  · cases layers with
    | nil => rfl
    | cons x t => rfl

/-! ## Point-in-polygon: parity characterization (claim C6 groundwork) -/

/-- Toggling a boolean once per satisfied list element computes the parity
of the number of satisfied elements. -/
theorem foldl_toggle (P : ℕ → Bool) (l : List ℕ) :
    ∀ b : Bool, l.foldl (fun inside i => if P i then !inside else inside) b =
      xor b (l.countP P % 2 == 1) := by
  induction l with
  | nil => intro b; simp
  | cons a t ih =>
    intro b
    rw [List.foldl_cons, List.countP_cons]
    by_cases hpa : P a = true
    · rw [if_pos hpa, ih, hpa]
      rcases Nat.mod_two_eq_zero_or_one (t.countP P) with h | h <;>
        cases b <;> simp [Nat.add_mod, h]
    · rw [if_neg hpa, ih]
      simp [hpa]

/-- Counting over `List.range` equals the cardinality of the corresponding
`Finset.range` filter. -/
theorem countP_range_card (P : ℕ → Bool) (n : ℕ) :
    (List.range n).countP P = ((Finset.range n).filter (fun i => P i = true)).card := by
  induction n with
  | zero => rfl
  | succ m ih =>
    rw [List.range_succ, List.countP_append, Finset.range_succ, Finset.filter_insert]
    by_cases hp : P m = true
    · rw [if_pos hp, Finset.card_insert_of_not_mem (by simp)]
      simp [List.countP_cons, hp, ih]
    · rw [if_neg hp]
      simp [List.countP_cons, hp, ih]

/-- `isPointInPolygon` computes the parity of the number of loop indices
whose `intersect` condition holds. -/
theorem isPointInPolygon_eq_parity (point : Vertex) (polygon : List Vertex) :
    isPointInPolygon point polygon =
      ((List.range polygon.length).countP (loopPred point polygon) % 2 == 1) := by
  rw [isPointInPolygon, foldl_toggle]
  simp

/-- Boolean inequality is symmetric. -/
theorem bne_comm (a b : Bool) : (a != b) = (b != a) := by
  cases a <;> cases b <;> rfl

/-- The loop body condition at index `i` is the crossing condition of the
closed-ring edge from `polygon[j]` to `polygon[i]`, `j` being the cyclic
predecessor of `i`. -/
theorem loopPred_eq_crossB (point : Vertex) (polygon : List Vertex) (i : ℕ)
    (hi : i < polygon.length) :
    loopPred point polygon i =
      crossB point polygon (if i = 0 then polygon.length - 1 else i - 1) := by
  unfold loopPred crossB tVal vtx
  split_ifs with h
  · subst h
    have e1 : (polygon.length - 1) % polygon.length = polygon.length - 1 :=
      Nat.mod_eq_of_lt (by omega)
    have e2 : (polygon.length - 1 + 1) % polygon.length = 0 := by
      rw [show polygon.length - 1 + 1 = polygon.length by omega, Nat.mod_self]
    rw [e1, e2, bne_comm]
  · have e1 : (i - 1) % polygon.length = i - 1 := Nat.mod_eq_of_lt (by omega)
    have e2 : (i - 1 + 1) % polygon.length = i := by
      rw [show i - 1 + 1 = i by omega, Nat.mod_eq_of_lt hi]
    rw [e1, e2, bne_comm]

/-- Reindexing the loop over the trailing pointer: the number of loop
indices whose condition holds equals the closed-ring crossing count. -/
theorem count_loopPred_eq_crossCount (point : Vertex) (polygon : List Vertex) :
    ((Finset.range polygon.length).filter (fun i => loopPred point polygon i = true)).card =
      crossCount point polygon := by
  rw [crossCount]
  rcases Nat.eq_zero_or_pos polygon.length with hn | hn
  · simp [hn]
  refine Finset.card_bij
    (fun (a : ℕ) _ha => if a = 0 then polygon.length - 1 else a - 1) ?_ ?_ ?_
  · intro a ha
    simp only [Finset.mem_filter, Finset.mem_range] at ha ⊢
    obtain ⟨han, hap⟩ := ha
    refine ⟨by split_ifs <;> omega, ?_⟩
    rw [← loopPred_eq_crossB point polygon a han]
    exact hap
  · intro a1 ha1 a2 ha2 heq
    simp only [Finset.mem_filter, Finset.mem_range] at ha1 ha2
    dsimp only at heq
    split_ifs at heq <;> omega
  · intro b hb
    simp only [Finset.mem_filter, Finset.mem_range] at hb
    obtain ⟨hbn, hbp⟩ := hb
    have hmemlt : (if b = polygon.length - 1 then 0 else b + 1) < polygon.length := by
      split_ifs <;> omega
    have harg : (if (if b = polygon.length - 1 then 0 else b + 1) = 0
        then polygon.length - 1 else (if b = polygon.length - 1 then 0 else b + 1) - 1) = b := by
      by_cases hb1 : b = polygon.length - 1 <;> simp [hb1]
    have hpred : loopPred point polygon (if b = polygon.length - 1 then 0 else b + 1) = true := by
      rw [loopPred_eq_crossB point polygon _ hmemlt, harg]
      exact hbp
    refine ⟨if b = polygon.length - 1 then 0 else b + 1, ?_, harg⟩
    simp only [Finset.mem_filter, Finset.mem_range]
    exact ⟨hmemlt, hpred⟩

/-- `isPointInPolygon` returns `true` exactly when the even-odd crossing
count over the closed ring's edges is odd. -/
theorem isPointInPolygon_iff_odd (point : Vertex) (polygon : List Vertex) :
    isPointInPolygon point polygon = true ↔ Odd (crossCount point polygon) := by
  rw [isPointInPolygon_eq_parity, countP_range_card, count_loopPred_eq_crossCount]
  simp [Nat.odd_iff]

/-- Unfolding the crossing condition of a ring edge into its straddle part
and its strict x-intersection part. -/
theorem crossB_eq_true_iff (point : Vertex) (polygon : List Vertex) (k : ℕ) :
    crossB point polygon k = true ↔
      (upwardAt point polygon k ∨ downwardAt point polygon k) ∧
        point.lat < tVal point polygon k := by
  rw [crossB]
  simp only [Bool.and_eq_true, bne_iff_ne, ne_eq, decide_eq_decide, decide_eq_true_eq,
    gt_iff_lt]
  unfold upwardAt downwardAt
  constructor
  · rintro ⟨hs, ht⟩
    refine ⟨?_, ht⟩
    by_cases h1 : point.lng < (vtx polygon k).lng <;>
      by_cases h2 : point.lng < (vtx polygon (k + 1)).lng <;> tauto
  · rintro ⟨hs, ht⟩
    refine ⟨?_, ht⟩
    rcases hs with ⟨h1, h2⟩ | ⟨h1, h2⟩ <;> tauto

/-- A straddling edge has distinct endpoint longitudes. -/
theorem straddle_ne (point : Vertex) (polygon : List Vertex) (k : ℕ)
    (h : upwardAt point polygon k ∨ downwardAt point polygon k) :
    (vtx polygon k).lng ≠ (vtx polygon (k + 1)).lng := by
  rcases h with ⟨h1, h2⟩ | ⟨h1, h2⟩ <;> intro he
  · exact h1 (he ▸ h2)
  · exact h2 (he ▸ h1)

/-- The defining identity of the x-intersection value, with denominators
cleared. -/
theorem tVal_spec (point : Vertex) (polygon : List Vertex) (k : ℕ)
    (h : (vtx polygon k).lng ≠ (vtx polygon (k + 1)).lng) :
    tVal point polygon k * ((vtx polygon (k + 1)).lng - (vtx polygon k).lng) =
      (vtx polygon k).lat * ((vtx polygon (k + 1)).lng - point.lng) +
      (vtx polygon (k + 1)).lat * (point.lng - (vtx polygon k).lng) := by
  rw [tVal]
  have hd : (vtx polygon k).lng - (vtx polygon (k + 1)).lng ≠ 0 := sub_ne_zero.mpr h
  field_simp
  ring

/-- If both endpoints of a straddling edge lie strictly below the point's
latitude, so does the x-intersection. -/
theorem tVal_lt_of_lats_lt (point : Vertex) (polygon : List Vertex) (k : ℕ)
    (hstr : upwardAt point polygon k ∨ downwardAt point polygon k)
    (hA : (vtx polygon k).lat < point.lat) (hB : (vtx polygon (k + 1)).lat < point.lat) :
    tVal point polygon k < point.lat := by
  have hne := straddle_ne point polygon k hstr
  have hid := tVal_spec point polygon k hne
  rcases hstr with ⟨h1, h2⟩ | ⟨h1, h2⟩
  · have h1' : (vtx polygon k).lng ≤ point.lng := not_lt.mp h1
    have hd : 0 < (vtx polygon (k + 1)).lng - (vtx polygon k).lng := by linarith
    nlinarith [hid]
  · have h2' : (vtx polygon (k + 1)).lng ≤ point.lng := not_lt.mp h2
    have hd : (vtx polygon (k + 1)).lng - (vtx polygon k).lng < 0 := by linarith
    nlinarith [hid]

/-- If both endpoints of a straddling edge lie strictly above the point's
latitude, so does the x-intersection. -/
theorem tVal_gt_of_lats_gt (point : Vertex) (polygon : List Vertex) (k : ℕ)
    (hstr : upwardAt point polygon k ∨ downwardAt point polygon k)
    (hA : point.lat < (vtx polygon k).lat) (hB : point.lat < (vtx polygon (k + 1)).lat) :
    point.lat < tVal point polygon k := by
  have hne := straddle_ne point polygon k hstr
  have hid := tVal_spec point polygon k hne
  rcases hstr with ⟨h1, h2⟩ | ⟨h1, h2⟩
  · have h1' : (vtx polygon k).lng ≤ point.lng := not_lt.mp h1
    have hd : 0 < (vtx polygon (k + 1)).lng - (vtx polygon k).lng := by linarith
    nlinarith [hid]
  · have h2' : (vtx polygon (k + 1)).lng ≤ point.lng := not_lt.mp h2
    have hd : (vtx polygon (k + 1)).lng - (vtx polygon k).lng < 0 := by linarith
    nlinarith [hid]

/-- Every `vtx` access lands inside a nonempty ring. -/
theorem vtx_mem (polygon : List Vertex) (k : ℕ) (h : polygon ≠ []) :
    vtx polygon k ∈ polygon := by
  rw [vtx]
  have hlen : 0 < polygon.length := List.length_pos.mpr h
  have hlt : k % polygon.length < polygon.length := Nat.mod_lt _ hlen
  rw [List.getD_eq_getElem polygon default hlt]
  exact List.getElem_mem hlt

/-- Every horizontal level is straddled by as many upward as downward
edges of the closed ring. -/
theorem card_upward_eq_downward (point : Vertex) (polygon : List Vertex) :
    ((Finset.range polygon.length).filter (fun k => upwardAt point polygon k)).card =
      ((Finset.range polygon.length).filter (fun k => downwardAt point polygon k)).card := by
  rcases Nat.eq_zero_or_pos polygon.length with hn | hn
  · simp [hn]
  have hper : vtx polygon polygon.length = vtx polygon 0 := by
    rw [vtx, Nat.mod_self, vtx, Nat.zero_mod]
  have htel : ∑ k in Finset.range polygon.length,
      ((if point.lng < (vtx polygon (k + 1)).lng then (1 : ℤ) else 0) -
        (if point.lng < (vtx polygon k).lng then (1 : ℤ) else 0)) = 0 := by
    rw [Finset.sum_range_sub (fun k => if point.lng < (vtx polygon k).lng then (1 : ℤ) else 0)]
    rw [hper]
    ring
  have hpt : ∀ k,
      ((if point.lng < (vtx polygon (k + 1)).lng then (1 : ℤ) else 0) -
        (if point.lng < (vtx polygon k).lng then (1 : ℤ) else 0)) =
      ((if upwardAt point polygon k then (1 : ℤ) else 0) -
        (if downwardAt point polygon k then (1 : ℤ) else 0)) := by
    intro k
    by_cases h1 : point.lng < (vtx polygon k).lng <;>
      by_cases h2 : point.lng < (vtx polygon (k + 1)).lng <;>
        simp [upwardAt, downwardAt, h1, h2]
  rw [Finset.sum_congr rfl (fun k _ => hpt k), Finset.sum_sub_distrib,
    Finset.sum_boole, Finset.sum_boole] at htel
  exact_mod_cast sub_eq_zero.mp htel

/-! ## Point-in-polygon: convex geometry (claim C6 groundwork) -/

/-- Reducing a ring index modulo the ring length does not change the
accessed vertex. -/
theorem vtx_mod (polygon : List Vertex) (k : ℕ) :
    vtx polygon (k % polygon.length) = vtx polygon k := by
  rw [vtx, vtx, Nat.mod_mod]

/-- `cross` vanishes when the third point is the base point. -/
theorem cross_left_eq_zero (o a : Vertex) : cross o a o = 0 := by
  unfold cross
  ring

/-- `cross` vanishes when the third point is the tip point. -/
theorem cross_right_eq_zero (o a : Vertex) : cross o a a = 0 := by
  unfold cross
  ring

/-- `cross` is affine in its third argument. -/
theorem cross_affine_combo (o a : Vertex) (x1 y1 x2 y2 s : ℚ) :
    cross o a ⟨(1 - s) * x1 + s * x2, (1 - s) * y1 + s * y2⟩ =
      (1 - s) * cross o a ⟨x1, y1⟩ + s * cross o a ⟨x2, y2⟩ := by
  unfold cross
  ring

/-- The intersection point of a straddling edge with the point's
horizontal level is a convex combination of the edge's endpoints. -/
theorem tVal_convex_combo (point : Vertex) (polygon : List Vertex) (k : ℕ)
    (hstr : upwardAt point polygon k ∨ downwardAt point polygon k) :
    ∃ s : ℚ, 0 ≤ s ∧ s ≤ 1 ∧
      tVal point polygon k =
        (1 - s) * (vtx polygon k).lat + s * (vtx polygon (k + 1)).lat ∧
      point.lng = (1 - s) * (vtx polygon k).lng + s * (vtx polygon (k + 1)).lng := by
  have hne := straddle_ne point polygon k hstr
  have hd : (vtx polygon (k + 1)).lng - (vtx polygon k).lng ≠ 0 :=
    sub_ne_zero.mpr (Ne.symm hne)
  have hd' : (vtx polygon k).lng - (vtx polygon (k + 1)).lng ≠ 0 := sub_ne_zero.mpr hne
  refine ⟨(point.lng - (vtx polygon k).lng) /
      ((vtx polygon (k + 1)).lng - (vtx polygon k).lng), ?_, ?_, ?_, ?_⟩
  · rcases hstr with ⟨h1, h2⟩ | ⟨h1, h2⟩
    · have h1' := not_lt.mp h1
      exact div_nonneg (by linarith) (by linarith)
    · have h2' := not_lt.mp h2
      exact div_nonneg_of_nonpos (by linarith) (by linarith)
  · have hrw : 1 - (point.lng - (vtx polygon k).lng) /
        ((vtx polygon (k + 1)).lng - (vtx polygon k).lng) =
        ((vtx polygon (k + 1)).lng - point.lng) /
          ((vtx polygon (k + 1)).lng - (vtx polygon k).lng) := by
      field_simp
    have hgoal : 0 ≤ 1 - (point.lng - (vtx polygon k).lng) /
        ((vtx polygon (k + 1)).lng - (vtx polygon k).lng) := by
      rw [hrw]
      rcases hstr with ⟨h1, h2⟩ | ⟨h1, h2⟩
      · have h1' := not_lt.mp h1
        exact div_nonneg (by linarith) (by linarith)
      · have h2' := not_lt.mp h2
        exact div_nonneg_of_nonpos (by linarith) (by linarith)
    linarith
  · rw [tVal]
    field_simp
    ring
  · field_simp
    ring

/-- Given strict convexity with orientation sign `ε`, every vertex lies in
the closed half-plane of every directed edge. -/
theorem eps_cross_vertex_nonneg (polygon : List Vertex) (ε : ℚ)
    (hconv : ∀ m < polygon.length, ∀ j < polygon.length,
      j ≠ m → j ≠ (m + 1) % polygon.length →
        0 < ε * cross (vtx polygon m) (vtx polygon (m + 1)) (vtx polygon j))
    (m j : ℕ) (hm : m < polygon.length) (hj : j < polygon.length) :
    0 ≤ ε * cross (vtx polygon m) (vtx polygon (m + 1)) (vtx polygon j) := by
  by_cases h1 : j = m
  · subst h1
    rw [cross_left_eq_zero, mul_zero]
  by_cases h2 : j = (m + 1) % polygon.length
  · subst h2
    rw [vtx_mod, cross_right_eq_zero, mul_zero]
  · exact le_of_lt (hconv m hm j hj h1 h2)

/-- Given strict convexity with orientation sign `ε`, the intersection
point of any straddling edge with any horizontal level lies in the closed
half-plane of every directed edge. -/
theorem eps_cross_tVal_nonneg (point : Vertex) (polygon : List Vertex) (ε : ℚ)
    (hconv : ∀ m < polygon.length, ∀ j < polygon.length,
      j ≠ m → j ≠ (m + 1) % polygon.length →
        0 < ε * cross (vtx polygon m) (vtx polygon (m + 1)) (vtx polygon j))
    (k m : ℕ) (hk : k < polygon.length) (hm : m < polygon.length)
    (hstr : upwardAt point polygon k ∨ downwardAt point polygon k) :
    0 ≤ ε * cross (vtx polygon m) (vtx polygon (m + 1))
      ⟨tVal point polygon k, point.lng⟩ := by
  have hn : 0 < polygon.length := by omega
  obtain ⟨s, hs0, hs1, ht, hy⟩ := tVal_convex_combo point polygon k hstr
  have hQ : (⟨tVal point polygon k, point.lng⟩ : Vertex) =
      ⟨(1 - s) * (vtx polygon k).lat + s * (vtx polygon (k + 1)).lat,
       (1 - s) * (vtx polygon k).lng + s * (vtx polygon (k + 1)).lng⟩ := by
    rw [← ht, ← hy]
  rw [hQ, cross_affine_combo]
  have heta1 : (⟨(vtx polygon k).lat, (vtx polygon k).lng⟩ : Vertex) = vtx polygon k := rfl
  have heta2 : (⟨(vtx polygon (k + 1)).lat, (vtx polygon (k + 1)).lng⟩ : Vertex) =
      vtx polygon (k + 1) := rfl
  rw [heta1, heta2]
  have t1 := eps_cross_vertex_nonneg polygon ε hconv m k hm hk
  have t2 : 0 ≤ ε * cross (vtx polygon m) (vtx polygon (m + 1)) (vtx polygon (k + 1)) := by
    have h := eps_cross_vertex_nonneg polygon ε hconv m ((k + 1) % polygon.length) hm
      (Nat.mod_lt _ hn)
    rwa [vtx_mod] at h
  have e : ε * ((1 - s) * cross (vtx polygon m) (vtx polygon (m + 1)) (vtx polygon k) +
      s * cross (vtx polygon m) (vtx polygon (m + 1)) (vtx polygon (k + 1))) =
      (1 - s) * (ε * cross (vtx polygon m) (vtx polygon (m + 1)) (vtx polygon k)) +
      s * (ε * cross (vtx polygon m) (vtx polygon (m + 1)) (vtx polygon (k + 1))) := by
    ring
  rw [e]
  exact add_nonneg (mul_nonneg (by linarith) t1) (mul_nonneg hs0 t2)

/-- The intersection point of a straddling edge lies on that edge's own
line. -/
theorem cross_edge_tVal_zero (point : Vertex) (polygon : List Vertex) (k : ℕ)
    (hstr : upwardAt point polygon k ∨ downwardAt point polygon k) :
    cross (vtx polygon k) (vtx polygon (k + 1)) ⟨tVal point polygon k, point.lng⟩ = 0 := by
  obtain ⟨s, _, _, ht, hy⟩ := tVal_convex_combo point polygon k hstr
  have hQ : (⟨tVal point polygon k, point.lng⟩ : Vertex) =
      ⟨(1 - s) * (vtx polygon k).lat + s * (vtx polygon (k + 1)).lat,
       (1 - s) * (vtx polygon k).lng + s * (vtx polygon (k + 1)).lng⟩ := by
    rw [← ht, ← hy]
  rw [hQ, cross_affine_combo]
  have heta1 : (⟨(vtx polygon k).lat, (vtx polygon k).lng⟩ : Vertex) = vtx polygon k := rfl
  have heta2 : (⟨(vtx polygon (k + 1)).lat, (vtx polygon (k + 1)).lng⟩ : Vertex) =
      vtx polygon (k + 1) := rfl
  rw [heta1, heta2, cross_left_eq_zero, cross_right_eq_zero]
  ring

/-- Signed distance of the point to a straddling edge, expressed through
the x-intersection value. -/
theorem tVal_sub_cross (point : Vertex) (polygon : List Vertex) (k : ℕ)
    (hne : (vtx polygon k).lng ≠ (vtx polygon (k + 1)).lng) :
    (tVal point polygon k - point.lat) * ((vtx polygon (k + 1)).lng - (vtx polygon k).lng) =
      cross (vtx polygon k) (vtx polygon (k + 1)) point := by
  have hid := tVal_spec point polygon k hne
  unfold cross
  linear_combination hid

/-- Sum of list entries accessed through `getD` over the index range. -/
theorem sum_range_getD (l : List ℚ) :
    ∑ j in Finset.range l.length, l.getD j 0 = l.sum := by
  induction l with
  | nil => simp
  | cons a t ih =>
    rw [List.length_cons, Finset.sum_range_succ']
    simp only [List.getD_cons_succ, List.getD_cons_zero]
    rw [ih, List.sum_cons, add_comm]

/-- The latitudes of the ring vertices sum to the latitude coordinate sum
of the ring. -/
theorem sum_vtx_lat (polygon : List Vertex) :
    ∑ j in Finset.range polygon.length, (vtx polygon j).lat =
      (polygon.map (·.lat)).sum := by
  rw [← sum_range_getD (polygon.map (·.lat)), List.length_map]
  refine Finset.sum_congr rfl ?_
  intro j hj
  have hjlt := Finset.mem_range.mp hj
  rw [vtx, Nat.mod_eq_of_lt hjlt, List.getD_eq_getElem polygon default hjlt,
    List.getD_eq_getElem (polygon.map (·.lat)) 0 (by simpa using hjlt), List.getElem_map]

/-- The longitudes of the ring vertices sum to the longitude coordinate
sum of the ring. -/
theorem sum_vtx_lng (polygon : List Vertex) :
    ∑ j in Finset.range polygon.length, (vtx polygon j).lng =
      (polygon.map (·.lng)).sum := by
  rw [← sum_range_getD (polygon.map (·.lng)), List.length_map]
  refine Finset.sum_congr rfl ?_
  intro j hj
  have hjlt := Finset.mem_range.mp hj
  rw [vtx, Nat.mod_eq_of_lt hjlt, List.getD_eq_getElem polygon default hjlt,
    List.getD_eq_getElem (polygon.map (·.lng)) 0 (by simpa using hjlt), List.getElem_map]

/-- Averaging: `n` times the signed distance of the centroid to an edge is
the sum of the vertices' signed distances. -/
theorem cross_centroid_sum (polygon : List Vertex) (m : ℕ) (hn : polygon.length ≠ 0) :
    (polygon.length : ℚ) * cross (vtx polygon m) (vtx polygon (m + 1)) (centroid polygon) =
      ∑ j in Finset.range polygon.length,
        cross (vtx polygon m) (vtx polygon (m + 1)) (vtx polygon j) := by
  have hexp : ∀ j, cross (vtx polygon m) (vtx polygon (m + 1)) (vtx polygon j) =
      ((vtx polygon (m + 1)).lat - (vtx polygon m).lat) * (vtx polygon j).lng -
      ((vtx polygon (m + 1)).lng - (vtx polygon m).lng) * (vtx polygon j).lat -
      (((vtx polygon (m + 1)).lat - (vtx polygon m).lat) * (vtx polygon m).lng -
        ((vtx polygon (m + 1)).lng - (vtx polygon m).lng) * (vtx polygon m).lat) := by
    intro j
    unfold cross
    ring
  rw [Finset.sum_congr rfl (fun j _ => hexp j), Finset.sum_sub_distrib,
    Finset.sum_sub_distrib, ← Finset.mul_sum, ← Finset.mul_sum, Finset.sum_const,
    Finset.card_range, sum_vtx_lat, sum_vtx_lng, nsmul_eq_mul]
  have hnQ : (polygon.length : ℚ) ≠ 0 := Nat.cast_ne_zero.mpr hn
  simp only [centroid, cross]
  field_simp
  ring

/-- Given strict convexity with orientation sign `ε` and at least three
vertices, the centroid lies strictly inside every edge's half-plane. -/
theorem eps_cross_centroid_pos (polygon : List Vertex) (ε : ℚ)
    (hn : 3 ≤ polygon.length)
    (hconv : ∀ m < polygon.length, ∀ j < polygon.length,
      j ≠ m → j ≠ (m + 1) % polygon.length →
        0 < ε * cross (vtx polygon m) (vtx polygon (m + 1)) (vtx polygon j))
    (m : ℕ) (hm : m < polygon.length) :
    0 < ε * cross (vtx polygon m) (vtx polygon (m + 1)) (centroid polygon) := by
  have hex : ∃ j0, j0 < polygon.length ∧ j0 ≠ m ∧ j0 ≠ (m + 1) % polygon.length := by
    by_contra hno
    push_neg at hno
    have hsub : Finset.range polygon.length ⊆ {m, (m + 1) % polygon.length} := by
      intro j hj
      have hjlt := Finset.mem_range.mp hj
      simp only [Finset.mem_insert, Finset.mem_singleton]
      by_cases hjm : j = m
      · exact Or.inl hjm
      · exact Or.inr (hno j hjlt hjm)
    have hcard := Finset.card_le_card hsub
    rw [Finset.card_range] at hcard
    have h2 : ({m, (m + 1) % polygon.length} : Finset ℕ).card ≤ 2 :=
      (Finset.card_insert_le _ _).trans (by simp)
    omega
  obtain ⟨j0, hj0n, hj0m, hj0s⟩ := hex
  have hterm := hconv m hm j0 hj0n hj0m hj0s
  have hsum : 0 < ∑ j in Finset.range polygon.length,
      ε * cross (vtx polygon m) (vtx polygon (m + 1)) (vtx polygon j) := by
    refine Finset.sum_pos' ?_ ⟨j0, Finset.mem_range.mpr hj0n, hterm⟩
    intro j hj
    exact eps_cross_vertex_nonneg polygon ε hconv m j hm (Finset.mem_range.mp hj)
  rw [← Finset.mul_sum, ← cross_centroid_sum polygon m (by omega)] at hsum
  have hnpos : (0 : ℚ) < (polygon.length : ℚ) := by
    exact_mod_cast (by omega : 0 < polygon.length)
  by_contra hc
  push_neg at hc
  have he : ε * ((polygon.length : ℚ) *
      cross (vtx polygon m) (vtx polygon (m + 1)) (centroid polygon)) =
      (polygon.length : ℚ) *
        (ε * cross (vtx polygon m) (vtx polygon (m + 1)) (centroid polygon)) := by
    ring
  rw [he] at hsum
  nlinarith

/-- For a strictly convex ring, the centroid's longitude lies strictly
between the longitudes of the ring: some vertex is strictly above it and
some vertex is not. -/
theorem centroid_lng_between (polygon : List Vertex) (ε : ℚ)
    (hn : 3 ≤ polygon.length)
    (hconv : ∀ m < polygon.length, ∀ j < polygon.length,
      j ≠ m → j ≠ (m + 1) % polygon.length →
        0 < ε * cross (vtx polygon m) (vtx polygon (m + 1)) (vtx polygon j)) :
    (∃ j, j < polygon.length ∧ (centroid polygon).lng < (vtx polygon j).lng) ∧
    (∃ j, j < polygon.length ∧ ¬ (centroid polygon).lng < (vtx polygon j).lng) := by
  have hnQ : (polygon.length : ℚ) ≠ 0 := Nat.cast_ne_zero.mpr (by omega)
  have hne : ¬ ∀ j, j < polygon.length → (vtx polygon j).lng = (vtx polygon 0).lng := by
    intro hall
    have hm2 : (2 : ℕ) ≠ (0 + 1) % polygon.length := by
      rw [Nat.mod_eq_of_lt (by omega)]
      omega
    have h2 := hconv 0 (by omega) 2 (by omega) (by omega) hm2
    have e1 := hall 1 (by omega)
    have e2 := hall 2 (by omega)
    have hz : cross (vtx polygon 0) (vtx polygon (0 + 1)) (vtx polygon 2) = 0 := by
      unfold cross
      rw [show vtx polygon (0 + 1) = vtx polygon 1 from rfl, e1, e2]
      ring
    rw [hz, mul_zero] at h2
    exact lt_irrefl 0 h2
  have hpy : (polygon.length : ℚ) * (centroid polygon).lng =
      (polygon.map (·.lng)).sum := by
    simp only [centroid]
    field_simp
  constructor
  · by_contra hno
    push_neg at hno
    by_cases hallpy : ∀ j, j < polygon.length →
        (vtx polygon j).lng = (centroid polygon).lng
    · exact hne fun j hj => by rw [hallpy j hj, hallpy 0 (by omega)]
    · push_neg at hallpy
      obtain ⟨j1, hj1, hj1ne⟩ := hallpy
      have hlt : ∑ j in Finset.range polygon.length, (vtx polygon j).lng <
          ∑ _j in Finset.range polygon.length, (centroid polygon).lng := by
        refine Finset.sum_lt_sum (fun i hi => hno i (Finset.mem_range.mp hi)) ?_
        exact ⟨j1, Finset.mem_range.mpr hj1,
          lt_of_le_of_ne (hno j1 hj1) hj1ne⟩
      rw [sum_vtx_lng, Finset.sum_const, Finset.card_range, nsmul_eq_mul] at hlt
      linarith
  · by_contra hno
    push_neg at hno
    have hlt : ∑ _j in Finset.range polygon.length, (centroid polygon).lng <
        ∑ j in Finset.range polygon.length, (vtx polygon j).lng := by
      refine Finset.sum_lt_sum_of_nonempty ?_ ?_
      · exact Finset.nonempty_range_iff.mpr (by omega)
      · intro i hi
        exact hno i (Finset.mem_range.mp hi)
    rw [sum_vtx_lng, Finset.sum_const, Finset.card_range, nsmul_eq_mul] at hlt
    linarith

/-- Strict convex combination for an upward straddling edge: the
interpolation parameter stays strictly below 1. -/
theorem tVal_combo_up (point : Vertex) (polygon : List Vertex) (k : ℕ)
    (hup : upwardAt point polygon k) :
    ∃ s : ℚ, 0 ≤ s ∧ s < 1 ∧
      tVal point polygon k =
        (1 - s) * (vtx polygon k).lat + s * (vtx polygon (k + 1)).lat ∧
      point.lng = (1 - s) * (vtx polygon k).lng + s * (vtx polygon (k + 1)).lng := by
  obtain ⟨h1, h2⟩ := hup
  have h1' := not_lt.mp h1
  have hd : (0 : ℚ) < (vtx polygon (k + 1)).lng - (vtx polygon k).lng := by linarith
  have hne : (vtx polygon k).lng ≠ (vtx polygon (k + 1)).lng := by
    intro he
    rw [he] at h1'
    linarith
  have hd' : (vtx polygon k).lng - (vtx polygon (k + 1)).lng ≠ 0 := sub_ne_zero.mpr hne
  have hdne : (vtx polygon (k + 1)).lng - (vtx polygon k).lng ≠ 0 := ne_of_gt hd
  refine ⟨(point.lng - (vtx polygon k).lng) / ((vtx polygon (k + 1)).lng - (vtx polygon k).lng),
    div_nonneg (by linarith) (le_of_lt hd), ?_, ?_, ?_⟩
  · rw [div_lt_one hd]
    linarith
  · rw [tVal]
    field_simp
    ring
  · field_simp
    ring

/-- Strict convex combination for a downward straddling edge: the
interpolation parameter stays strictly above 0. -/
theorem tVal_combo_down (point : Vertex) (polygon : List Vertex) (k : ℕ)
    (hdown : downwardAt point polygon k) :
    ∃ s : ℚ, 0 < s ∧ s ≤ 1 ∧
      tVal point polygon k =
        (1 - s) * (vtx polygon k).lat + s * (vtx polygon (k + 1)).lat ∧
      point.lng = (1 - s) * (vtx polygon k).lng + s * (vtx polygon (k + 1)).lng := by
  obtain ⟨h1, h2⟩ := hdown
  have h2' := not_lt.mp h2
  have hd : (vtx polygon (k + 1)).lng - (vtx polygon k).lng < 0 := by linarith
  have hne : (vtx polygon k).lng ≠ (vtx polygon (k + 1)).lng := by
    intro he
    rw [he] at h1
    linarith
  have hd' : (vtx polygon k).lng - (vtx polygon (k + 1)).lng ≠ 0 := sub_ne_zero.mpr hne
  have hdne : (vtx polygon (k + 1)).lng - (vtx polygon k).lng ≠ 0 := ne_of_lt hd
  refine ⟨(point.lng - (vtx polygon k).lng) / ((vtx polygon (k + 1)).lng - (vtx polygon k).lng),
    div_pos_of_neg_of_neg (by linarith) hd, ?_, ?_, ?_⟩
  · have hrw : 1 - (point.lng - (vtx polygon k).lng) /
        ((vtx polygon (k + 1)).lng - (vtx polygon k).lng) =
        ((vtx polygon (k + 1)).lng - point.lng) /
          ((vtx polygon (k + 1)).lng - (vtx polygon k).lng) := by
      field_simp
    have h0 : 0 ≤ 1 - (point.lng - (vtx polygon k).lng) /
        ((vtx polygon (k + 1)).lng - (vtx polygon k).lng) := by
      rw [hrw]
      exact div_nonneg_of_nonpos (by linarith) (le_of_lt hd)
    linarith
  · rw [tVal]
    field_simp
    ring
  · field_simp
    ring

/-- Unfolded successor modulo the ring length. -/
theorem succ_mod_eq (n k : ℕ) (hk : k < n) :
    (k + 1) % n = if k + 1 = n then 0 else k + 1 := by
  split_ifs with h
  · rw [h, Nat.mod_self]
  · exact Nat.mod_eq_of_lt (by omega)

/-- Successor modulo the ring length is injective on ring indices. -/
theorem succ_mod_inj (n k1 k2 : ℕ) (h1 : k1 < n) (h2 : k2 < n)
    (he : (k1 + 1) % n = (k2 + 1) % n) : k1 = k2 := by
  rw [succ_mod_eq n k1 h1, succ_mod_eq n k2 h2] at he
  split_ifs at he <;> omega

/-- Two distinct upward edges of a strictly convex ring meet a horizontal
level at distinct points. -/
theorem tVal_ne_of_up_up (point : Vertex) (polygon : List Vertex) (ε : ℚ)
    (hε0 : ε ≠ 0)
    (hconv : ∀ m < polygon.length, ∀ j < polygon.length,
      j ≠ m → j ≠ (m + 1) % polygon.length →
        0 < ε * cross (vtx polygon m) (vtx polygon (m + 1)) (vtx polygon j))
    (k1 k2 : ℕ) (hk1 : k1 < polygon.length) (hk2 : k2 < polygon.length)
    (hne12 : k1 ≠ k2)
    (hup1 : upwardAt point polygon k1) (hup2 : upwardAt point polygon k2) :
    tVal point polygon k1 ≠ tVal point polygon k2 := by
  intro hteq
  have hn : 0 < polygon.length := by omega
  have hzero1 : cross (vtx polygon k1) (vtx polygon (k1 + 1))
      ⟨tVal point polygon k2, point.lng⟩ = 0 := by
    rw [← hteq]
    exact cross_edge_tVal_zero point polygon k1 (Or.inl hup1)
  obtain ⟨s2, hs20, hs21, ht2, hy2⟩ := tVal_combo_up point polygon k2 hup2
  have hQ : (⟨tVal point polygon k2, point.lng⟩ : Vertex) =
      ⟨(1 - s2) * (vtx polygon k2).lat + s2 * (vtx polygon (k2 + 1)).lat,
       (1 - s2) * (vtx polygon k2).lng + s2 * (vtx polygon (k2 + 1)).lng⟩ := by
    rw [← ht2, ← hy2]
  rw [hQ, cross_affine_combo] at hzero1
  have heta1 : (⟨(vtx polygon k2).lat, (vtx polygon k2).lng⟩ : Vertex) = vtx polygon k2 := rfl
  have heta2 : (⟨(vtx polygon (k2 + 1)).lat, (vtx polygon (k2 + 1)).lng⟩ : Vertex) =
      vtx polygon (k2 + 1) := rfl
  rw [heta1, heta2] at hzero1
  have hA2 := eps_cross_vertex_nonneg polygon ε hconv k1 k2 hk1 hk2
  have hB2 : 0 ≤ ε * cross (vtx polygon k1) (vtx polygon (k1 + 1)) (vtx polygon (k2 + 1)) := by
    have h := eps_cross_vertex_nonneg polygon ε hconv k1 ((k2 + 1) % polygon.length) hk1
      (Nat.mod_lt _ hn)
    rwa [vtx_mod] at h
  have hterm1 : (0 : ℚ) ≤ (1 - s2) *
      (ε * cross (vtx polygon k1) (vtx polygon (k1 + 1)) (vtx polygon k2)) :=
    mul_nonneg (by linarith) hA2
  have hterm2 : (0 : ℚ) ≤ s2 *
      (ε * cross (vtx polygon k1) (vtx polygon (k1 + 1)) (vtx polygon (k2 + 1))) :=
    mul_nonneg hs20 hB2
  have hsum0 : (1 - s2) *
      (ε * cross (vtx polygon k1) (vtx polygon (k1 + 1)) (vtx polygon k2)) +
      s2 * (ε * cross (vtx polygon k1) (vtx polygon (k1 + 1)) (vtx polygon (k2 + 1))) = 0 := by
    have he : (1 - s2) *
        (ε * cross (vtx polygon k1) (vtx polygon (k1 + 1)) (vtx polygon k2)) +
        s2 * (ε * cross (vtx polygon k1) (vtx polygon (k1 + 1)) (vtx polygon (k2 + 1))) =
        ε * ((1 - s2) * cross (vtx polygon k1) (vtx polygon (k1 + 1)) (vtx polygon k2) +
          s2 * cross (vtx polygon k1) (vtx polygon (k1 + 1)) (vtx polygon (k2 + 1))) := by
      ring
    rw [he, hzero1, mul_zero]
  have hz1 : (1 - s2) *
      (ε * cross (vtx polygon k1) (vtx polygon (k1 + 1)) (vtx polygon k2)) = 0 := by
    linarith
  have hcA2 : cross (vtx polygon k1) (vtx polygon (k1 + 1)) (vtx polygon k2) = 0 := by
    rcases mul_eq_zero.mp hz1 with h | h
    · exact absurd h (by linarith)
    · rcases mul_eq_zero.mp h with h' | h'
      · exact absurd h' hε0
      · exact h'
  have hk2succ : k2 = (k1 + 1) % polygon.length := by
    by_contra hk2s
    have hpos := hconv k1 hk1 k2 hk2 (Ne.symm hne12) hk2s
    rw [hcA2, mul_zero] at hpos
    exact lt_irrefl 0 hpos
  have hv : vtx polygon k2 = vtx polygon (k1 + 1) := by
    rw [hk2succ, vtx_mod]
  obtain ⟨h1a, _⟩ := hup2
  obtain ⟨_, h1b⟩ := hup1
  rw [hv] at h1a
  exact h1a h1b

/-- Two distinct downward edges of a strictly convex ring meet a
horizontal level at distinct points. -/
theorem tVal_ne_of_down_down (point : Vertex) (polygon : List Vertex) (ε : ℚ)
    (hε0 : ε ≠ 0)
    (hconv : ∀ m < polygon.length, ∀ j < polygon.length,
      j ≠ m → j ≠ (m + 1) % polygon.length →
        0 < ε * cross (vtx polygon m) (vtx polygon (m + 1)) (vtx polygon j))
    (k1 k2 : ℕ) (hk1 : k1 < polygon.length) (hk2 : k2 < polygon.length)
    (hne12 : k1 ≠ k2)
    (hdown1 : downwardAt point polygon k1) (hdown2 : downwardAt point polygon k2) :
    tVal point polygon k1 ≠ tVal point polygon k2 := by
  intro hteq
  have hn : 0 < polygon.length := by omega
  have hzero1 : cross (vtx polygon k1) (vtx polygon (k1 + 1))
      ⟨tVal point polygon k2, point.lng⟩ = 0 := by
    rw [← hteq]
    exact cross_edge_tVal_zero point polygon k1 (Or.inr hdown1)
  obtain ⟨s2, hs20, hs21, ht2, hy2⟩ := tVal_combo_down point polygon k2 hdown2
  have hQ : (⟨tVal point polygon k2, point.lng⟩ : Vertex) =
      ⟨(1 - s2) * (vtx polygon k2).lat + s2 * (vtx polygon (k2 + 1)).lat,
       (1 - s2) * (vtx polygon k2).lng + s2 * (vtx polygon (k2 + 1)).lng⟩ := by
    rw [← ht2, ← hy2]
  rw [hQ, cross_affine_combo] at hzero1
  have heta1 : (⟨(vtx polygon k2).lat, (vtx polygon k2).lng⟩ : Vertex) = vtx polygon k2 := rfl
  have heta2 : (⟨(vtx polygon (k2 + 1)).lat, (vtx polygon (k2 + 1)).lng⟩ : Vertex) =
      vtx polygon (k2 + 1) := rfl
  rw [heta1, heta2] at hzero1
  have hA2 := eps_cross_vertex_nonneg polygon ε hconv k1 k2 hk1 hk2
  have hB2 : 0 ≤ ε * cross (vtx polygon k1) (vtx polygon (k1 + 1)) (vtx polygon (k2 + 1)) := by
    have h := eps_cross_vertex_nonneg polygon ε hconv k1 ((k2 + 1) % polygon.length) hk1
      (Nat.mod_lt _ hn)
    rwa [vtx_mod] at h
  have hterm1 : (0 : ℚ) ≤ (1 - s2) *
      (ε * cross (vtx polygon k1) (vtx polygon (k1 + 1)) (vtx polygon k2)) :=
    mul_nonneg (by linarith) hA2
  have hterm2 : (0 : ℚ) ≤ s2 *
      (ε * cross (vtx polygon k1) (vtx polygon (k1 + 1)) (vtx polygon (k2 + 1))) :=
    mul_nonneg (le_of_lt hs20) hB2
  have hsum0 : (1 - s2) *
      (ε * cross (vtx polygon k1) (vtx polygon (k1 + 1)) (vtx polygon k2)) +
      s2 * (ε * cross (vtx polygon k1) (vtx polygon (k1 + 1)) (vtx polygon (k2 + 1))) = 0 := by
    have he : (1 - s2) *
        (ε * cross (vtx polygon k1) (vtx polygon (k1 + 1)) (vtx polygon k2)) +
        s2 * (ε * cross (vtx polygon k1) (vtx polygon (k1 + 1)) (vtx polygon (k2 + 1))) =
        ε * ((1 - s2) * cross (vtx polygon k1) (vtx polygon (k1 + 1)) (vtx polygon k2) +
          s2 * cross (vtx polygon k1) (vtx polygon (k1 + 1)) (vtx polygon (k2 + 1))) := by
      ring
    rw [he, hzero1, mul_zero]
  have hz2 : s2 *
      (ε * cross (vtx polygon k1) (vtx polygon (k1 + 1)) (vtx polygon (k2 + 1))) = 0 := by
    linarith
  have hcB2 : cross (vtx polygon k1) (vtx polygon (k1 + 1)) (vtx polygon (k2 + 1)) = 0 := by
    rcases mul_eq_zero.mp hz2 with h | h
    · exact absurd h (by linarith)
    · rcases mul_eq_zero.mp h with h' | h'
      · exact absurd h' hε0
      · exact h'
  have hsucclt : (k2 + 1) % polygon.length < polygon.length := Nat.mod_lt _ hn
  have hsucccase : (k2 + 1) % polygon.length = k1 ∨
      (k2 + 1) % polygon.length = (k1 + 1) % polygon.length := by
    by_contra hno
    push_neg at hno
    obtain ⟨hno1, hno2⟩ := hno
    have hpos := hconv k1 hk1 ((k2 + 1) % polygon.length) hsucclt hno1 hno2
    rw [vtx_mod, hcB2, mul_zero] at hpos
    exact lt_irrefl 0 hpos
  rcases hsucccase with hcase | hcase
  · have hv : vtx polygon (k2 + 1) = vtx polygon k1 := by
      rw [← vtx_mod polygon (k2 + 1), hcase]
    obtain ⟨_, h2b⟩ := hdown2
    obtain ⟨h1a, _⟩ := hdown1
    rw [hv] at h2b
    exact h2b h1a
  · exact hne12 (succ_mod_inj polygon.length k2 k1 hk2 hk1 hcase).symm

/-- Three straddling edges cannot meet a horizontal level at three points
with one strictly between the other two, for a strictly convex ring. -/
theorem no_middle_crossing (point : Vertex) (polygon : List Vertex) (ε : ℚ)
    (hε0 : ε ≠ 0)
    (hconv : ∀ m < polygon.length, ∀ j < polygon.length,
      j ≠ m → j ≠ (m + 1) % polygon.length →
        0 < ε * cross (vtx polygon m) (vtx polygon (m + 1)) (vtx polygon j))
    (k1 k2 k3 : ℕ) (hk1 : k1 < polygon.length) (hk2 : k2 < polygon.length)
    (hk3 : k3 < polygon.length)
    (hs1 : upwardAt point polygon k1 ∨ downwardAt point polygon k1)
    (hs2 : upwardAt point polygon k2 ∨ downwardAt point polygon k2)
    (hs3 : upwardAt point polygon k3 ∨ downwardAt point polygon k3)
    (h31 : tVal point polygon k3 < tVal point polygon k1)
    (h12 : tVal point polygon k1 < tVal point polygon k2) : False := by
  have hden : (0 : ℚ) < tVal point polygon k2 - tVal point polygon k3 := by linarith
  set lam : ℚ := (tVal point polygon k1 - tVal point polygon k3) /
    (tVal point polygon k2 - tVal point polygon k3) with hlam
  have hlpos : 0 < lam := div_pos (by linarith) hden
  have hllt : lam < 1 := (div_lt_one hden).mpr (by linarith)
  have hx : tVal point polygon k1 =
      (1 - lam) * tVal point polygon k3 + lam * tVal point polygon k2 := by
    rw [hlam]
    field_simp
    ring
  have hy : point.lng = (1 - lam) * point.lng + lam * point.lng := by ring
  have hz := cross_edge_tVal_zero point polygon k1 hs1
  have hQ : (⟨tVal point polygon k1, point.lng⟩ : Vertex) =
      ⟨(1 - lam) * tVal point polygon k3 + lam * tVal point polygon k2,
       (1 - lam) * point.lng + lam * point.lng⟩ := by
    rw [← hx, ← hy]
  rw [hQ, cross_affine_combo] at hz
  have h3n := eps_cross_tVal_nonneg point polygon ε hconv k3 k1 hk3 hk1 hs3
  have h2n := eps_cross_tVal_nonneg point polygon ε hconv k2 k1 hk2 hk1 hs2
  have hterm1 : (0 : ℚ) ≤ (1 - lam) *
      (ε * cross (vtx polygon k1) (vtx polygon (k1 + 1))
        ⟨tVal point polygon k3, point.lng⟩) :=
    mul_nonneg (by linarith) h3n
  have hterm2 : (0 : ℚ) ≤ lam *
      (ε * cross (vtx polygon k1) (vtx polygon (k1 + 1))
        ⟨tVal point polygon k2, point.lng⟩) :=
    mul_nonneg (le_of_lt hlpos) h2n
  have hsum0 : (1 - lam) *
      (ε * cross (vtx polygon k1) (vtx polygon (k1 + 1)) ⟨tVal point polygon k3, point.lng⟩) +
      lam * (ε * cross (vtx polygon k1) (vtx polygon (k1 + 1))
        ⟨tVal point polygon k2, point.lng⟩) = 0 := by
    have he : (1 - lam) *
        (ε * cross (vtx polygon k1) (vtx polygon (k1 + 1)) ⟨tVal point polygon k3, point.lng⟩) +
        lam * (ε * cross (vtx polygon k1) (vtx polygon (k1 + 1))
          ⟨tVal point polygon k2, point.lng⟩) =
        ε * ((1 - lam) * cross (vtx polygon k1) (vtx polygon (k1 + 1))
            ⟨tVal point polygon k3, point.lng⟩ +
          lam * cross (vtx polygon k1) (vtx polygon (k1 + 1))
            ⟨tVal point polygon k2, point.lng⟩) := by
      ring
    rw [he, hz, mul_zero]
  have hz2 : lam * (ε * cross (vtx polygon k1) (vtx polygon (k1 + 1))
      ⟨tVal point polygon k2, point.lng⟩) = 0 := by
    linarith
  have hc2 : cross (vtx polygon k1) (vtx polygon (k1 + 1))
      ⟨tVal point polygon k2, point.lng⟩ = 0 := by
    rcases mul_eq_zero.mp hz2 with h | h
    · exact absurd h (by linarith)
    · rcases mul_eq_zero.mp h with h' | h'
      · exact absurd h' hε0
      · exact h'
  have hc1 := cross_edge_tVal_zero point polygon k1 hs1
  have hdiff : cross (vtx polygon k1) (vtx polygon (k1 + 1))
      ⟨tVal point polygon k2, point.lng⟩ -
      cross (vtx polygon k1) (vtx polygon (k1 + 1)) ⟨tVal point polygon k1, point.lng⟩ =
      -(((vtx polygon (k1 + 1)).lng - (vtx polygon k1).lng) *
        (tVal point polygon k2 - tVal point polygon k1)) := by
    unfold cross
    ring
  rw [hc1, hc2] at hdiff
  have hprod : ((vtx polygon (k1 + 1)).lng - (vtx polygon k1).lng) *
      (tVal point polygon k2 - tVal point polygon k1) = 0 := by linarith
  have hne1 := straddle_ne point polygon k1 hs1
  rcases mul_eq_zero.mp hprod with h | h
  · exact hne1 (by linarith)
  · linarith

/-- For a strictly convex ring (orientation sign `ε`), the even-odd
crossing count of the centroid is exactly 1. -/
theorem crossCount_centroid_convex (polygon : List Vertex) (ε : ℚ)
    (hε : ε = 1 ∨ ε = -1) (hn : 3 ≤ polygon.length)
    (hconv : ∀ m < polygon.length, ∀ j < polygon.length,
      j ≠ m → j ≠ (m + 1) % polygon.length →
        0 < ε * cross (vtx polygon m) (vtx polygon (m + 1)) (vtx polygon j)) :
    crossCount (centroid polygon) polygon = 1 := by
  have hε0 : ε ≠ 0 := by rcases hε with h | h <;> rw [h] <;> norm_num
  have hside : ∀ k, k < polygon.length →
      (upwardAt (centroid polygon) polygon k ∨ downwardAt (centroid polygon) polygon k) →
      0 < ε * ((tVal (centroid polygon) polygon k - (centroid polygon).lat) *
        ((vtx polygon (k + 1)).lng - (vtx polygon k).lng)) := by
    intro k hk hstr
    rw [tVal_sub_cross (centroid polygon) polygon k (straddle_ne _ polygon k hstr)]
    exact eps_cross_centroid_pos polygon ε hn hconv k hk
  have hUD := card_upward_eq_downward (centroid polygon) polygon
  have hbt := centroid_lng_between polygon ε hn hconv
  have hU1 : 1 ≤ ((Finset.range polygon.length).filter
      (fun k => upwardAt (centroid polygon) polygon k)).card := by
    by_contra h0
    push_neg at h0
    have hU0 : ((Finset.range polygon.length).filter
        (fun k => upwardAt (centroid polygon) polygon k)).card = 0 := by omega
    have hD0 : ((Finset.range polygon.length).filter
        (fun k => downwardAt (centroid polygon) polygon k)).card = 0 := by omega
    have hupno := Finset.filter_eq_empty_iff.mp (Finset.card_eq_zero.mp hU0)
    have hdownno := Finset.filter_eq_empty_iff.mp (Finset.card_eq_zero.mp hD0)
    have hconst : ∀ k, k < polygon.length →
        ((centroid polygon).lng < (vtx polygon k).lng ↔
          (centroid polygon).lng < (vtx polygon 0).lng) := by
      intro k
      induction k with
      | zero => intro _; exact Iff.rfl
      | succ i ih =>
        intro hk
        have hi : i < polygon.length := by omega
        have hup := hupno (Finset.mem_range.mpr hi)
        have hdn := hdownno (Finset.mem_range.mpr hi)
        unfold upwardAt at hup
        unfold downwardAt at hdn
        have hstep : ((centroid polygon).lng < (vtx polygon (i + 1)).lng ↔
            (centroid polygon).lng < (vtx polygon i).lng) := by tauto
        exact hstep.trans (ih hi)
    obtain ⟨⟨ja, hja, hjab⟩, ⟨jb, hjb, hjbb⟩⟩ := hbt
    exact hjbb ((hconst jb hjb).mpr ((hconst ja hja).mp hjab))
  rcases hε with hε1 | hε1
  · subst hε1
    have hupside : ∀ k, k < polygon.length →
        upwardAt (centroid polygon) polygon k →
        (centroid polygon).lat < tVal (centroid polygon) polygon k := by
      intro k hk hup
      have hp := hside k hk (Or.inl hup)
      rw [one_mul] at hp
      obtain ⟨h1, h2⟩ := hup
      have h1' := not_lt.mp h1
      have hd : 0 < (vtx polygon (k + 1)).lng - (vtx polygon k).lng := by linarith
      nlinarith
    have hdownside : ∀ k, k < polygon.length →
        downwardAt (centroid polygon) polygon k →
        tVal (centroid polygon) polygon k < (centroid polygon).lat := by
      intro k hk hdown
      have hp := hside k hk (Or.inr hdown)
      rw [one_mul] at hp
      obtain ⟨h1, h2⟩ := hdown
      have h2' := not_lt.mp h2
      have hd : (vtx polygon (k + 1)).lng - (vtx polygon k).lng < 0 := by linarith
      nlinarith
    have hfilter : (Finset.range polygon.length).filter
        (fun k => crossB (centroid polygon) polygon k = true) =
        (Finset.range polygon.length).filter
          (fun k => upwardAt (centroid polygon) polygon k) := by
      apply Finset.filter_congr
      intro k hk
      have hklt := Finset.mem_range.mp hk
      rw [crossB_eq_true_iff]
      constructor
      · rintro ⟨hstr, hts⟩
        rcases hstr with hup | hdown
        · exact hup
        · have := hdownside k hklt hdown
          linarith
      · intro hup
        exact ⟨Or.inl hup, hupside k hklt hup⟩
    rw [crossCount, hfilter]
    by_contra hne1
    have h2le : 2 ≤ ((Finset.range polygon.length).filter
        (fun k => upwardAt (centroid polygon) polygon k)).card := by omega
    obtain ⟨k1, hk1mem, k2, hk2mem, hk12⟩ :=
      Finset.one_lt_card.mp (lt_of_lt_of_le one_lt_two h2le)
    obtain ⟨hk1r, hup1⟩ := Finset.mem_filter.mp hk1mem
    obtain ⟨hk2r, hup2⟩ := Finset.mem_filter.mp hk2mem
    have hk1lt := Finset.mem_range.mp hk1r
    have hk2lt := Finset.mem_range.mp hk2r
    have hDpos : 0 < ((Finset.range polygon.length).filter
        (fun k => downwardAt (centroid polygon) polygon k)).card := by omega
    obtain ⟨k3, hk3mem⟩ := Finset.card_pos.mp hDpos
    obtain ⟨hk3r, hk3d⟩ := Finset.mem_filter.mp hk3mem
    have hk3lt := Finset.mem_range.mp hk3r
    have ht1 := hupside k1 hk1lt hup1
    have ht2 := hupside k2 hk2lt hup2
    have ht3 := hdownside k3 hk3lt hk3d
    have htne := tVal_ne_of_up_up (centroid polygon) polygon 1 (by norm_num) hconv
      k1 k2 hk1lt hk2lt hk12 hup1 hup2
    rcases lt_or_gt_of_ne htne with hlt | hgt
    · exact no_middle_crossing (centroid polygon) polygon 1 (by norm_num) hconv
        k1 k2 k3 hk1lt hk2lt hk3lt (Or.inl hup1) (Or.inl hup2) (Or.inr hk3d)
        (by linarith) hlt
    · exact no_middle_crossing (centroid polygon) polygon 1 (by norm_num) hconv
        k2 k1 k3 hk2lt hk1lt hk3lt (Or.inl hup2) (Or.inl hup1) (Or.inr hk3d)
        (by linarith) hgt
  · subst hε1
    have hdownside : ∀ k, k < polygon.length →
        downwardAt (centroid polygon) polygon k →
        (centroid polygon).lat < tVal (centroid polygon) polygon k := by
      intro k hk hdown
      have hp := hside k hk (Or.inr hdown)
      have hp' : (tVal (centroid polygon) polygon k - (centroid polygon).lat) *
          ((vtx polygon (k + 1)).lng - (vtx polygon k).lng) < 0 := by nlinarith
      obtain ⟨h1, h2⟩ := hdown
      have h2' := not_lt.mp h2
      have hd : (vtx polygon (k + 1)).lng - (vtx polygon k).lng < 0 := by linarith
      nlinarith
    have hupside : ∀ k, k < polygon.length →
        upwardAt (centroid polygon) polygon k →
        tVal (centroid polygon) polygon k < (centroid polygon).lat := by
      intro k hk hup
      have hp := hside k hk (Or.inl hup)
      have hp' : (tVal (centroid polygon) polygon k - (centroid polygon).lat) *
          ((vtx polygon (k + 1)).lng - (vtx polygon k).lng) < 0 := by nlinarith
      obtain ⟨h1, h2⟩ := hup
      have h1' := not_lt.mp h1
      have hd : 0 < (vtx polygon (k + 1)).lng - (vtx polygon k).lng := by linarith
      nlinarith
    have hfilter : (Finset.range polygon.length).filter
        (fun k => crossB (centroid polygon) polygon k = true) =
        (Finset.range polygon.length).filter
          (fun k => downwardAt (centroid polygon) polygon k) := by
      apply Finset.filter_congr
      intro k hk
      have hklt := Finset.mem_range.mp hk
      rw [crossB_eq_true_iff]
      constructor
      · rintro ⟨hstr, hts⟩
        rcases hstr with hup | hdown
        · have := hupside k hklt hup
          linarith
        · exact hdown
      · intro hdown
        exact ⟨Or.inr hdown, hdownside k hklt hdown⟩
    rw [crossCount, hfilter]
    by_contra hne1
    have h2le : 2 ≤ ((Finset.range polygon.length).filter
        (fun k => downwardAt (centroid polygon) polygon k)).card := by omega
    obtain ⟨k1, hk1mem, k2, hk2mem, hk12⟩ :=
      Finset.one_lt_card.mp (lt_of_lt_of_le one_lt_two h2le)
    obtain ⟨hk1r, hdn1⟩ := Finset.mem_filter.mp hk1mem
    obtain ⟨hk2r, hdn2⟩ := Finset.mem_filter.mp hk2mem
    have hk1lt := Finset.mem_range.mp hk1r
    have hk2lt := Finset.mem_range.mp hk2r
    have hUpos : 0 < ((Finset.range polygon.length).filter
        (fun k => upwardAt (centroid polygon) polygon k)).card := by omega
    obtain ⟨k3, hk3mem⟩ := Finset.card_pos.mp hUpos
    obtain ⟨hk3r, hk3u⟩ := Finset.mem_filter.mp hk3mem
    have hk3lt := Finset.mem_range.mp hk3r
    have ht1 := hdownside k1 hk1lt hdn1
    have ht2 := hdownside k2 hk2lt hdn2
    have ht3 := hupside k3 hk3lt hk3u
    have htne := tVal_ne_of_down_down (centroid polygon) polygon (-1) (by norm_num) hconv
      k1 k2 hk1lt hk2lt hk12 hdn1 hdn2
    rcases lt_or_gt_of_ne htne with hlt | hgt
    · exact no_middle_crossing (centroid polygon) polygon (-1) (by norm_num) hconv
        k1 k2 k3 hk1lt hk2lt hk3lt (Or.inr hdn1) (Or.inr hdn2) (Or.inl hk3u)
        (by linarith) hlt
    · exact no_middle_crossing (centroid polygon) polygon (-1) (by norm_num) hconv
        k2 k1 k3 hk2lt hk1lt hk3lt (Or.inr hdn2) (Or.inr hdn1) (Or.inl hk3u)
        (by linarith) hgt

/-! ## Claim C6 (point-in-polygon test) -/

/-- C6: the point-in-polygon test implements the even-odd ray-casting rule
over the closed ring's edges — it returns `true` exactly when the number
of ring edges satisfying the crossing condition is odd; in particular, for
every (strictly) convex polygon of either orientation it returns `true`
for the polygon's centroid, and for every point strictly outside the
polygon's bounding box it returns `false`. -/
theorem C6_point_in_polygon :
    (∀ (point : Vertex) (polygon : List Vertex),
      isPointInPolygon point polygon = true ↔ Odd (crossCount point polygon)) ∧
    (∀ polygon : List Vertex, ConvexRing polygon →
      isPointInPolygon (centroid polygon) polygon = true) ∧
    (∀ (polygon : List Vertex) (point : Vertex), OutsideBBox point polygon →
      isPointInPolygon point polygon = false) := by
  refine ⟨isPointInPolygon_iff_odd, ?_, ?_⟩
  · intro polygon hcv
    obtain ⟨hn, hor⟩ := hcv
    have hconv : ∃ ε : ℚ, (ε = 1 ∨ ε = -1) ∧
        ∀ m < polygon.length, ∀ j < polygon.length,
          j ≠ m → j ≠ (m + 1) % polygon.length →
            0 < ε * cross (vtx polygon m) (vtx polygon (m + 1)) (vtx polygon j) := by
      rcases hor with h | h
      · refine ⟨1, Or.inl rfl, ?_⟩
        intro m hm j hj h1 h2
        rw [one_mul]
        exact h m hm j hj h1 h2
      · refine ⟨-1, Or.inr rfl, ?_⟩
        intro m hm j hj h1 h2
        have := h m hm j hj h1 h2
        nlinarith
    obtain ⟨ε, hε, hc⟩ := hconv
    rw [isPointInPolygon_iff_odd, crossCount_centroid_convex polygon ε hε hn hc]
    exact odd_one
  · intro polygon point hout
    apply Bool.eq_false_iff.mpr
    intro htrue
    rw [isPointInPolygon_iff_odd] at htrue
    rcases hout with hcase | hcase | hcase | hcase
    · -- every vertex latitude strictly below the point's: no edge counted
      have hcount : crossCount point polygon = 0 := by
        rw [crossCount, Finset.card_eq_zero, Finset.filter_eq_empty_iff]
        intro k hk
        have hklt := Finset.mem_range.mp hk
        rw [crossB_eq_true_iff]
        rintro ⟨hstr, hts⟩
        have hne : polygon ≠ [] := by
          intro h
          rw [h] at hklt
          simp at hklt
        have hA := hcase (vtx polygon k) (vtx_mem polygon k hne)
        have hB := hcase (vtx polygon (k + 1)) (vtx_mem polygon (k + 1) hne)
        have := tVal_lt_of_lats_lt point polygon k hstr hA hB
        linarith
      rw [hcount] at htrue
      simp at htrue
    · -- every vertex latitude strictly above: every straddling edge is
      -- counted, and upward/downward straddles pair up, so the count is even
      have hfeq : (Finset.range polygon.length).filter
          (fun k => crossB point polygon k = true) =
          (Finset.range polygon.length).filter
            (fun k => upwardAt point polygon k ∨ downwardAt point polygon k) := by
        apply Finset.filter_congr
        intro k hk
        have hklt := Finset.mem_range.mp hk
        rw [crossB_eq_true_iff]
        constructor
        · rintro ⟨hstr, _⟩
          exact hstr
        · intro hstr
          refine ⟨hstr, ?_⟩
          have hne : polygon ≠ [] := by
            intro h
            rw [h] at hklt
            simp at hklt
          have hA := hcase (vtx polygon k) (vtx_mem polygon k hne)
          have hB := hcase (vtx polygon (k + 1)) (vtx_mem polygon (k + 1) hne)
          exact tVal_gt_of_lats_gt point polygon k hstr hA hB
      have hdisj : Disjoint
          ((Finset.range polygon.length).filter (fun k => upwardAt point polygon k))
          ((Finset.range polygon.length).filter (fun k => downwardAt point polygon k)) := by
        rw [Finset.disjoint_left]
        intro a ha hb
        obtain ⟨_, hau⟩ := Finset.mem_filter.mp ha
        obtain ⟨_, had⟩ := Finset.mem_filter.mp hb
        exact hau.1 had.1
      have hcount : crossCount point polygon =
          2 * ((Finset.range polygon.length).filter
            (fun k => upwardAt point polygon k)).card := by
        rw [crossCount, hfeq, Finset.filter_or, Finset.card_union_of_disjoint hdisj,
          ← card_upward_eq_downward point polygon]
        ring
      rw [hcount, Nat.odd_iff] at htrue
      omega
    · -- every vertex longitude strictly below: no straddling edge at all
      have hcount : crossCount point polygon = 0 := by
        rw [crossCount, Finset.card_eq_zero, Finset.filter_eq_empty_iff]
        intro k hk
        have hklt := Finset.mem_range.mp hk
        rw [crossB_eq_true_iff]
        rintro ⟨hstr, _⟩
        have hne : polygon ≠ [] := by
          intro h
          rw [h] at hklt
          simp at hklt
        have hA := hcase (vtx polygon k) (vtx_mem polygon k hne)
        have hB := hcase (vtx polygon (k + 1)) (vtx_mem polygon (k + 1) hne)
        rcases hstr with ⟨_, h2⟩ | ⟨h1, _⟩
        · linarith
        · linarith
      rw [hcount] at htrue
      simp at htrue
    · -- every vertex longitude strictly above: no straddling edge at all
      have hcount : crossCount point polygon = 0 := by
        rw [crossCount, Finset.card_eq_zero, Finset.filter_eq_empty_iff]
        intro k hk
        have hklt := Finset.mem_range.mp hk
        rw [crossB_eq_true_iff]
        rintro ⟨hstr, _⟩
        have hne : polygon ≠ [] := by
          intro h
          rw [h] at hklt
          simp at hklt
        have hA := hcase (vtx polygon k) (vtx_mem polygon k hne)
        have hB := hcase (vtx polygon (k + 1)) (vtx_mem polygon (k + 1) hne)
        rcases hstr with ⟨h1, _⟩ | ⟨_, h2⟩
        · exact h1 hA
        · exact h2 hB
      rw [hcount] at htrue
      simp at htrue

unseal Rat.mul Rat.add Rat.sub Rat.inv Rat.ofScientific in
/-- Witness for C6 at the concrete square ring: it is a convex ring, its
centroid `(1,1)` tests inside, the far point `(5,5)` is strictly outside
its bounding box and tests outside, and the parity characterization holds
there. -/
theorem C6_witness :
    ConvexRing sqPoly ∧
    isPointInPolygon (centroid sqPoly) sqPoly = true ∧
    OutsideBBox ⟨5, 5⟩ sqPoly ∧
    isPointInPolygon ⟨5, 5⟩ sqPoly = false ∧
    (isPointInPolygon ⟨1, 0⟩ sqPoly = true ↔ Odd (crossCount ⟨1, 0⟩ sqPoly)) :=
  ⟨by decide, C6_point_in_polygon.2.1 sqPoly (by decide),
    by decide, C6_point_in_polygon.2.2 sqPoly ⟨5, 5⟩ (by decide),
    C6_point_in_polygon.1 ⟨1, 0⟩ sqPoly⟩

end FieldMeasure
